import Mathlib

/-!
Verification of the virtual-file-system synchronization engine of the
markdown-preview-hub repository (src/lib/polling.ts, src/lib/virtual-fs.ts,
src/lib/file-system.ts, src/lib/database.ts).

Paths are modelled as lists of characters; timestamps as naturals (JS epoch
milliseconds); browser file/directory handles as booleans recording whether a
handle is attached; the IndexedDB key-value store of `VirtualFile` records as a
list keyed by `id`.
-/

namespace MDHub

/-- Path type: a JS string viewed as its character list. -/
abbrev Path := List Char

/-- Conversion from a Lean string literal to a modelled path. -/
def toPath (s : String) : Path := s.toList

/-- FileStatus from src/types (part of virtual-fs.ts related types): the sync
status values of an entry. -/
inductive FileStatus where
  | synced
  | modified
  | conflict
  | webOnly
  | diskChanged
deriving DecidableEq

/-- Entry type: file or folder. -/
inductive FType where
  | file
  | folder
deriving DecidableEq

/-- VirtualFile from src/types: the persisted entry record. `fileHandle` and
`dirHandle` are opaque capability handles in the source; here only their
presence (null or not) is recorded, which is all the modelled control flow
inspects. -/
structure VirtualFile where
  id : Nat
  path : Path
  realPath : Option Path
  hasFileHandle : Bool
  hasDirHandle : Bool
  virtualName : Path
  contentOverride : Option Path
  isDirty : Bool
  isHidden : Bool
  isWebOnly : Bool
  lastSyncedAt : Nat
  diskLastModified : Option Nat
  status : FileStatus
  type : FType
  createdAt : Nat
  updatedAt : Nat
deriving DecidableEq

/-- PermissionDescriptor query outcome of the File System Access API
(`handle.queryPermission`); `error` stands for the call throwing. -/
inductive PermissionState where
  | granted
  | prompt
  | denied
  | error
deriving DecidableEq

/-- hasFilePermission from src/lib/file-system.ts: query only, no prompt;
returns `permission === 'granted'`, and false when the call throws. -/
def hasFilePermission (q : PermissionState) : Bool :=
  q == PermissionState.granted

/-- The skip guard of checkFileChange (src/lib/polling.ts line 276):
`file.diskLastModified && diskModified <= file.diskLastModified`. JS
truthiness makes both a null and a zero stored timestamp fail the first
conjunct. -/
def jsSkipGuard (stored : Option Nat) (diskModified : Nat) : Bool :=
  match stored with
  | none => false
  | some d => d != 0 && decide (diskModified ≤ d)

/-- checkFileChange from src/lib/polling.ts (lines 261-310), as the pure
per-entry transition: inputs are the stored entry, the queryPermission result
for its file handle, the freshly observed disk lastModified, and the current
time (`Date.now()`, which updateFile also writes into `updatedAt`). The
branches mirror the source: no handle or web-only entries and
permission-denied checks return the entry untouched; the skip guard returns it
untouched; a dirty entry gets `status='conflict'` and the new
`diskLastModified`; otherwise the entry auto-reloads. -/
def checkFileChange (f : VirtualFile) (q : PermissionState) (diskModified now : Nat) :
    VirtualFile :=
  if !f.hasFileHandle || f.isWebOnly then f
  else if !(hasFilePermission q) then f
  else if jsSkipGuard f.diskLastModified diskModified then f
  else if f.isDirty then
    { f with
        status := FileStatus.conflict, diskLastModified := some diskModified,
        updatedAt := now }
  else
    { f with
        diskLastModified := some diskModified, lastSyncedAt := now,
        status := FileStatus.synced, updatedAt := now }

/-- Resolution choices of resolveConflict from src/lib/virtual-fs.ts. -/
inductive Resolution where
  | keepWeb
  | useDisk
deriving DecidableEq

/-- resolveConflict from src/lib/virtual-fs.ts (lines 320-342): `keep-web`
just sets `status='modified'`; `use-disk` discards the override, adopts the
disk `lastModified` and marks the entry synced. An entry without a file handle
is returned untouched (the early return of the source). -/
def resolveConflict (f : VirtualFile) (r : Resolution) (diskLastModified now : Nat) :
    VirtualFile :=
  if !f.hasFileHandle then f
  else
    match r with
    | Resolution.keepWeb => { f with status := FileStatus.modified, updatedAt := now }
    | Resolution.useDisk =>
        { f with
            contentOverride := none, isDirty := false,
            diskLastModified := some diskLastModified, lastSyncedAt := now,
            status := FileStatus.synced, updatedAt := now }

/-- Observation consumed by one per-entry check: the permission query result,
the observed disk lastModified and the current time. -/
abbrev CheckObs := PermissionState × Nat × Nat

/-- Iterated per-entry checks: applying checkFileChange for each observation
in turn. -/
def applyChecks (f : VirtualFile) (obs : List CheckObs) : VirtualFile :=
  obs.foldl (fun g o => checkFileChange g o.1 o.2.1 o.2.2) f

/-- Sample disk-backed clean entry (status `synced`, no local changes) whose
stored `diskLastModified` is the timestamp `0`. -/
def sampleClean : VirtualFile :=
  { id := 0, path := toPath ("r/a.md"), realPath := some (toPath ("r/a.md")),
    hasFileHandle := true, hasDirHandle := false, virtualName := toPath ("a.md"),
    contentOverride := none, isDirty := false, isHidden := false, isWebOnly := false,
    lastSyncedAt := 5, diskLastModified := some 0, status := FileStatus.synced,
    type := FType.file, createdAt := 1, updatedAt := 1 }

/-- Sample disk-backed dirty entry (unsaved local edits). -/
def sampleDirty : VirtualFile :=
  { sampleClean with
      id := 1, isDirty := true, status := FileStatus.modified,
      contentOverride := some (toPath ("local edits")), diskLastModified := some 3 }

/-- IndexedDB put on the files table (src/lib/database.ts `db.put('files', f)`
with keyPath `id`): replaces the record carrying the same id, else inserts at
the end. -/
def dbPut (files : List VirtualFile) (f : VirtualFile) : List VirtualFile :=
  if files.any (fun g => g.id == f.id) then
    files.map (fun g => if g.id == f.id then f else g)
  else files ++ [f]

/-- saveFiles from src/lib/database.ts: bulk put of a list of records in one
readwrite transaction. -/
def dbPutMany (files newFiles : List VirtualFile) : List VirtualFile :=
  newFiles.foldl dbPut files

/-- updateFile from src/lib/database.ts: load the record with the given id and
put back the patched record (the caller's updates plus the fresh `updatedAt`,
folded into `patch` by each caller below). -/
def dbUpdate (files : List VirtualFile) (fid : Nat)
    (patch : VirtualFile -> VirtualFile) : List VirtualFile :=
  files.map (fun g => if g.id == fid then patch g else g)

/-- Process-wide mutable state seen by the poller: the persisted entry table
and the `permissionLost` signal (src/stores/file-store.ts line 54, initially
false). -/
structure SyncState where
  files : List VirtualFile
  permissionLost : Bool
deriving DecidableEq

/-- One timer tick of the active-file poller at store level (pollActiveFile
and checkFileChange, src/lib/polling.ts lines 142-149 and 261-310): load the
active entry, and perform the updateFile write of the branch taken.
polling.ts never references the permissionLost signal, so that field is
carried through unchanged in every branch. -/
def checkFileChangeDB (st : SyncState) (fid : Nat) (q : PermissionState)
    (m now : Nat) : SyncState :=
  match st.files.find? (fun g => g.id == fid) with
  | none => st
  | some f =>
    if !f.hasFileHandle || f.isWebOnly then st
    else if !(hasFilePermission q) then st
    else if jsSkipGuard f.diskLastModified m then st
    else if f.isDirty then
      { st with
          files := dbUpdate st.files fid (fun g =>
            { g with
                status := FileStatus.conflict, diskLastModified := some m,
                updatedAt := now }) }
    else
      { st with
          files := dbUpdate st.files fid (fun g =>
            { g with
                diskLastModified := some m, lastSyncedAt := now,
                status := FileStatus.synced, updatedAt := now }) }

/-- pollForNewFiles from src/lib/polling.ts (lines 188-256), the successful
path after the directory permission query: `scannedPrepended` is the scan
result with the root name already prepended (lines 215-222). Paths on disk
but absent from the store are bulk-inserted via saveFiles; detected deletions
only fire UI callbacks and leave the store untouched. -/
def pollForNewFiles (existing scannedPrepended : List VirtualFile) :
    List VirtualFile :=
  let existingPaths := existing.map (fun f => f.path)
  let newFiles := scannedPrepended.filter (fun f => !(existingPaths.contains f.path))
  dbPutMany existing newFiles

/-- Atomic storage transactions against the entries table: clearAllFiles and
saveFiles from src/lib/database.ts (each runs as a single IndexedDB
transaction). -/
inductive StoreOp where
  | clearAll
  | putMany (fs : List VirtualFile)

/-- Effect of one storage transaction on the entries table. -/
def applyStoreOp (s : List VirtualFile) : StoreOp -> List VirtualFile
  | StoreOp.clearAll => []
  | StoreOp.putMany fs => dbPutMany s fs

/-- The storage-transaction sequence of a full or scoped rescan
(src/lib/polling.ts lines 390-393 and 567-570): `await clearAllFiles()`
followed by `await saveFiles(allFiles)` - two separate transactions with an
await point between them at which any reader can run. -/
def rescanOps (allFiles : List VirtualFile) : List StoreOp :=
  [StoreOp.clearAll, StoreOp.putMany allFiles]

/-- All store states observable by a reader interleaved around the
transactions: the state before the sequence and the state after each
transaction. -/
def statesDuring (s0 : List VirtualFile) : List StoreOp -> List (List VirtualFile)
  | [] => [s0]
  | op :: ops => s0 :: statesDuring (applyStoreOp s0 op) ops

/-- Sample freshly scanned disk entry whose path is not yet stored. -/
def sampleNew : VirtualFile :=
  { sampleClean with
      id := 7, path := toPath ("r/new.md"), realPath := some (toPath ("r/new.md")),
      diskLastModified := some 11 }

/-- JS `path.replace(/\\/+$/, '')` used when prepending the root name: strip
trailing slashes. -/
def stripTrailingSlashes (p : Path) : Path :=
  (p.reverse.dropWhile (fun c => c == '/')).reverse

/-- Root/folder-name prepending applied to each scanned entry by
fullRescanFromDisk, pollForNewFiles and syncFolderFromDisk: path and realPath
become the given front path plus '/' plus the scanned relative path, with
trailing slashes stripped. -/
def prependPath (front : Path) (f : VirtualFile) : VirtualFile :=
  let p := stripTrailingSlashes (front ++ '/' :: f.path)
  { f with path := p, realPath := some p }

/-- JS `path.split('/')[0]`: the first path segment. -/
def firstSeg (p : Path) : Path := p.takeWhile (fun c => c != '/')

/-- The fresh root folder entry created by fullRescanFromDisk
(src/lib/polling.ts lines 361-378). -/
def mkRootFolder (rid : Nat) (rootName : Path) (now : Nat) : VirtualFile :=
  { id := rid, path := rootName, realPath := some rootName, hasFileHandle := false,
    hasDirHandle := true, virtualName := rootName, contentOverride := none,
    isDirty := false, isHidden := false, isWebOnly := false, lastSyncedAt := now,
    diskLastModified := none, status := FileStatus.synced, type := FType.folder,
    createdAt := now, updatedAt := now }

/-- The replacement list `allFiles` built by fullRescanFromDisk
(src/lib/polling.ts lines 325-398): the fresh root folder entry, the scanned
disk entries with the root name prepended, and the existing web-only entries
whose path lies under this root. No other existing entry is carried over. -/
def fullRescanAllFiles (existing scanned : List VirtualFile) (rootName : Path)
    (rid now : Nat) : List VirtualFile :=
  mkRootFolder rid rootName now :: scanned.map (prependPath rootName) ++
    existing.filter (fun f => f.isWebOnly && (rootName ++ ['/']).isPrefixOf f.path)

/-- The persisted entry set after a completed full rescan: clearAllFiles
followed by saveFiles(allFiles), cf. src/lib/polling.ts lines 390-393. -/
def fullRescanFromDisk (existing scanned : List VirtualFile) (rootName : Path)
    (rid now : Nat) : List VirtualFile :=
  dbPutMany [] (fullRescanAllFiles existing scanned rootName rid now)

/-- The replacement list `allFiles` built by syncFolderFromDisk
(src/lib/polling.ts lines 442-583) for the folder entry `file` on the
success path: entries of other roots, entries of the same root outside the
synced subtree (for a subfolder sync), the folder entry itself updated with
the resolved handle, the freshly scanned subtree entries with the folder path
prepended, and the web-only entries inside the subtree. -/
def syncFolderAllFiles (existing : List VirtualFile) (file : VirtualFile)
    (scanned : List VirtualFile) (now : Nat) : List VirtualFile :=
  let rootName := firstSeg file.path
  let isRootFolder := file.path == rootName
  let diskFiles := scanned.map (prependPath (if isRootFolder then rootName else file.path))
  let folderPre := file.path ++ ['/']
  let filesInFolder := existing.filter (fun f =>
    folderPre.isPrefixOf f.path || (isRootFolder && f.path == rootName))
  let webOnlyInFolder := filesInFolder.filter (fun f => f.isWebOnly && f.id != file.id)
  let filesFromOtherRoots := existing.filter (fun f =>
    f.path != rootName && !((rootName ++ ['/']).isPrefixOf f.path))
  let filesInSameRootButOutside :=
    if isRootFolder then []
    else existing.filter (fun f =>
      (f.path == rootName || (rootName ++ ['/']).isPrefixOf f.path) &&
      !(folderPre.isPrefixOf f.path) && f.id != file.id)
  let updatedFolder :=
    { file with
        hasDirHandle := true, isHidden := false, lastSyncedAt := now,
        status := FileStatus.synced }
  filesFromOtherRoots ++ filesInSameRootButOutside ++ [updatedFolder] ++
    diskFiles ++ webOnlyInFolder

/-- syncFolderFromDisk on its success path (the folder entry exists and is a
folder; handle resolution and permission are granted): the persisted set
after clearAllFiles + saveFiles(allFiles). All failure paths of the source
return early without touching the store, modelled as none. -/
def syncFolderFromDisk (existing : List VirtualFile) (folderId : Nat)
    (scanned : List VirtualFile) (now : Nat) : Option (List VirtualFile) :=
  match existing.find? (fun f => f.id == folderId) with
  | none => none
  | some file =>
      if file.type != FType.folder then none
      else some (dbPutMany [] (syncFolderAllFiles existing file scanned now))

/-- Sample web-only entry living under root "r". -/
def sampleWebOnly : VirtualFile :=
  { id := 2, path := toPath ("r/web.md"), realPath := none, hasFileHandle := false,
    hasDirHandle := false, virtualName := toPath ("web.md"),
    contentOverride := some (toPath ("web text")), isDirty := true, isHidden := false,
    isWebOnly := true, lastSyncedAt := 2, diskLastModified := none,
    status := FileStatus.webOnly, type := FType.file, createdAt := 2, updatedAt := 2 }

/-- Sample disk-backed entry belonging to a different root "q". -/
def sampleOtherRoot : VirtualFile :=
  { sampleClean with
      id := 3, path := toPath ("q/b.md"), realPath := some (toPath ("q/b.md")),
      virtualName := toPath ("b.md"), diskLastModified := some 4 }

/-- Sample stored root folder entry for root "r". -/
def sampleRoot : VirtualFile := mkRootFolder 4 (toPath ("r")) 3

/-- The backquote character (code 96). -/
def backquoteChar : Char := Char.ofNat 96

/-- The apostrophe character (code 39). -/
def aposChar : Char := Char.ofNat 39

/-- GetSubstitution of JS String.replace for a plain string pattern (no
capture groups): expand the replacement text, where a double dollar is a
literal dollar, dollar-ampersand is the matched substring, dollar-backquote
is the part before the match and dollar-apostrophe the part after it; any
other dollar sequence (including a trailing dollar) is literal. -/
def expandReplacement (matched before after : Path) : Path -> Path
  | [] => []
  | c :: rest =>
      if c = '$' then
        match rest with
        | [] => [c]
        | c2 :: rest2 =>
            if c2 = '$' then '$' :: expandReplacement matched before after rest2
            else if c2 = '&' then matched ++ expandReplacement matched before after rest2
            else if c2 = backquoteChar then
              before ++ expandReplacement matched before after rest2
            else if c2 = aposChar then
              after ++ expandReplacement matched before after rest2
            else '$' :: c2 :: expandReplacement matched before after rest2
      else c :: expandReplacement matched before after rest

/-- First index at which `pat` occurs as a contiguous substring (JS
String.indexOf). -/
def findSubIdx (pat : Path) : Path -> Option Nat
  | [] => if pat.isEmpty then some 0 else none
  | c :: rest =>
      if pat.isPrefixOf (c :: rest) then some 0
      else (findSubIdx pat rest).map (fun i => i + 1)

/-- JS `s.replace(pat, repl)` for a plain string pattern: replace the first
occurrence of `pat`, expanding dollar escapes in `repl` against that match;
return `s` unchanged when `pat` does not occur. Used by renameFile's
descendant loop `child.path.replace(oldPath, newPath)`. -/
def jsReplaceOnce (s pat repl : Path) : Path :=
  match findSubIdx pat s with
  | none => s
  | some i =>
      s.take i ++ expandReplacement pat (s.take i) (s.drop (i + pat.length)) repl
        ++ s.drop (i + pat.length)

/-- The maximal trailing run of non-slash characters of a path (the text the
regex `[^/]+$` matches, when nonempty). -/
def trailingRun (p : Path) : Path :=
  (p.reverse.takeWhile (fun c => c != '/')).reverse

/-- The part of a path before its trailing non-slash run. -/
def beforeLeaf (p : Path) : Path :=
  (p.reverse.dropWhile (fun c => c != '/')).reverse

/-- JS `oldPath.replace(/[^\\/]+$/, newName)` from renameFile: when the
trailing non-slash run is nonempty it is the match, the part before it is
kept, and `newName` is substituted with dollar escapes expanded against the
match (nothing follows the match); otherwise the regex does not match and the
path is unchanged. -/
def replaceLeafJS (p newName : Path) : Path :=
  if (trailingRun p).isEmpty then p
  else beforeLeaf p ++ expandReplacement (trailingRun p) (beforeLeaf p) [] newName

/-- One entry's transformation under renameFile (src/lib/virtual-fs.ts lines
93-119) of the folder with id `fid`: the first updateFile gives the renamed
entry its new leaf name and rewritten path; the descendant pass then runs
`child.path.replace(oldPath, newPath)` on every entry whose current path
starts with `oldPath + '/'` (the snapshot is read after the first update, so
the renamed entry itself is re-examined with its new path). updateFile
refreshes updatedAt in both passes. -/
def renStep (fid : Nat) (oldPath newPath newName : Path) (now : Nat)
    (g : VirtualFile) : VirtualFile :=
  let g1 := if g.id == fid then
      { g with virtualName := newName, path := newPath, updatedAt := now }
    else g
  if (oldPath ++ ['/']).isPrefixOf g1.path then
    { g1 with path := jsReplaceOnce g1.path oldPath newPath, updatedAt := now }
  else g1

/-- renameFile from src/lib/virtual-fs.ts: none when the id is absent (the
source throws); renames the entry, and for a folder rewrites each stored
descendant path. The store is keyed by unique ids, so the per-id updateFile
loop is the pointwise map below. -/
def renameFile (files : List VirtualFile) (fid : Nat) (newName : Path)
    (now : Nat) : Option (List VirtualFile) :=
  (files.find? (fun g => g.id == fid)).map (fun f =>
    let oldPath := f.path
    let newPath := replaceLeafJS oldPath newName
    if f.type == FType.folder then
      files.map (renStep fid oldPath newPath newName now)
    else
      files.map (fun g =>
        if g.id == fid then
          { g with virtualName := newName, path := newPath, updatedAt := now }
        else g))

/-- Sample stored folder "r/f" about to be renamed. -/
def renameDemoF : VirtualFile :=
  { sampleRoot with id := 20, path := toPath ("r/f"), virtualName := toPath ("f") }

/-- Sample stored descendant file of "r/f". -/
def renameDemoC : VirtualFile :=
  { sampleClean with
      id := 21, path := toPath ("r/f/c.md"), virtualName := toPath ("c.md") }

/-- A disk directory tree as enumerated through the File System Access API:
files carry a lastModified timestamp, directories their children in
enumeration order. -/
inductive DiskNode where
  | file (name : Path) (lastModified : Nat)
  | dir (name : Path) (children : List DiskNode)

/-- Well-formedness of a disk tree: entry names contain no slash (guaranteed
by the File System Access API). -/
inductive DiskNode.Wf : DiskNode -> Prop where
  | file : ∀ (name : Path) (lm : Nat), '/' ∉ name -> name ≠ [] ->
      DiskNode.Wf (DiskNode.file name lm)
  | dir : ∀ (name : Path) (children : List DiskNode), '/' ∉ name -> name ≠ [] ->
      (∀ c ∈ children, DiskNode.Wf c) -> DiskNode.Wf (DiskNode.dir name children)

/-- ScanConfig from src/lib/file-system.ts lines 9-14. -/
structure ScanConfig where
  ignoredFolders : List Path
  allowedExtensions : List Path
  maxFiles : Nat
  maxDepth : Nat

/-- DEFAULT_SCAN_CONFIG from src/lib/file-system.ts lines 16-40. -/
def DEFAULT_SCAN_CONFIG : ScanConfig :=
  { ignoredFolders := [toPath ("node_modules"), toPath (".git"), toPath ("dist"),
      toPath ("build"), toPath (".next"), toPath (".nuxt"), toPath (".astro"),
      toPath (".cache"), toPath (".temp"), toPath ("__pycache__"), toPath (".idea"),
      toPath (".vscode"), toPath (".svn"), toPath (".hg"), toPath ("vendor"),
      toPath ("bower_components"), toPath ("out"), toPath (".DS_Store")],
    allowedExtensions := [toPath (".md"), toPath (".mdx"), toPath (".markdown")],
    maxFiles := 1000, maxDepth := 10 }

/-- The scan configuration scanDirectory uses at every call site in the
repository (none passes a config override): the defaults, with the
ignored-folder list taken from settings (src/lib/file-system.ts lines
129-135). -/
def mkScanConfig (settingsIgnored : List Path) : ScanConfig :=
  { DEFAULT_SCAN_CONFIG with ignoredFolders := settingsIgnored }

/-- isIgnoredFolder from src/lib/file-system.ts lines 455-457:
`ignoredFolders.includes(name) || name.startsWith('.')`. -/
def isIgnoredFolder (name : Path) (ignoredFolders : List Path) : Bool :=
  ignoredFolders.contains name ||
    (match name with
     | [] => false
     | c :: _ => c == '.')

/-- JS `name.split('.').pop()`: the part after the last dot, or the whole
name when it has no dot. -/
def lastDotSeg (name : Path) : Path :=
  (name.reverse.takeWhile (fun c => c != '.')).reverse

/-- isAllowedFile from src/lib/file-system.ts lines 459-462: the name is kept
when `'.' + name.split('.').pop()?.toLowerCase()` is in allowedExtensions. -/
def isAllowedFile (name : Path) (allowedExtensions : List Path) : Bool :=
  allowedExtensions.contains ('.' :: (lastDotSeg name).map Char.toLower)

/-- Modelled from the spec's words, for comparison only: the lowercased
extension of a file name is the final dot plus what follows it, when the name
contains a dot; a dotless name has no extension. -/
def specExtension (name : Path) : Option Path :=
  if name.contains '.' then some ('.' :: (lastDotSeg name).map Char.toLower)
  else none

/-- Mutable state of the scanDirectory walk: the pushed entries, the file
counter `scannedCount`, and the id supply (crypto.randomUUID in the source,
modelled as a fresh counter). -/
structure ScanState where
  files : List VirtualFile
  count : Nat
  nextId : Nat

/-- The folder record pushed by scanDirectory (src/lib/file-system.ts lines
169-188). -/
def scanFolderEntry (i : Nat) (p name : Path) (now : Nat) : VirtualFile :=
  { id := i, path := p, realPath := some p, hasFileHandle := false,
    hasDirHandle := true, virtualName := name, contentOverride := none,
    isDirty := false, isHidden := false, isWebOnly := false, lastSyncedAt := now,
    diskLastModified := none, status := FileStatus.synced, type := FType.folder,
    createdAt := now, updatedAt := now }

/-- The file record pushed by scanDirectory (lines 203-222). -/
def scanFileEntry (i : Nat) (p name : Path) (lm now : Nat) : VirtualFile :=
  { id := i, path := p, realPath := some p, hasFileHandle := true,
    hasDirHandle := true, virtualName := name, contentOverride := none,
    isDirty := false, isHidden := false, isWebOnly := false, lastSyncedAt := now,
    diskLastModified := some lm, status := FileStatus.synced, type := FType.file,
    createdAt := now, updatedAt := now }

/-- One loop iteration of the scanDirectory walk, processing a single
directory entry: the count-cap skip (the source's loop break - once the cap
is reached the count never decreases, so skipping every later entry equals
breaking), the ignored-folder skip, the folder push plus guarded recursion
(`recurse` is the walk at the next depth), and the extension-filtered file
push. -/
def scanStep (cfg : ScanConfig) (now : Nat)
    (recurse : List DiskNode -> Path -> Nat -> ScanState -> ScanState)
    (path : Path) (depth : Nat) (acc : ScanState) (e : DiskNode) : ScanState :=
  if acc.count >= cfg.maxFiles then acc
  else
    match e with
    | DiskNode.dir name children =>
        if isIgnoredFolder name cfg.ignoredFolders then acc
        else
          let folderPath := if path.isEmpty then name else path ++ '/' :: name
          let st1 : ScanState :=
            { files := acc.files ++ [scanFolderEntry acc.nextId folderPath name now],
              count := acc.count, nextId := acc.nextId + 1 }
          if depth + 1 > cfg.maxDepth then st1
          else if st1.count >= cfg.maxFiles then st1
          else recurse children folderPath (depth + 1) st1
    | DiskNode.file name lm =>
        if !(isAllowedFile name cfg.allowedExtensions) then acc
        else
          let filePath := if path.isEmpty then name else path ++ '/' :: name
          { files := acc.files ++ [scanFileEntry acc.nextId filePath name lm now],
            count := acc.count + 1, nextId := acc.nextId + 1 }

/-- The recursive walk of scanDirectory (src/lib/file-system.ts lines
140-230) over the children of one directory. `gas` is the remaining depth
budget, `maxDepth + 1 - depth` at every call: the source's own entry guard
`depth > maxDepth` (here placed at the call site, identically, inside
scanStep) stops the recursion before the budget runs out, so the gas-zero
branch is unreachable from scanDirectoryRaw - it exists only to make the
recursion structural. -/
def scanEntries (cfg : ScanConfig) (now : Nat) :
    Nat -> List DiskNode -> Path -> Nat -> ScanState -> ScanState
  | 0, _, _, _, st => st
  | gas + 1, entries, path, depth, st =>
      entries.foldl (scanStep cfg now (scanEntries cfg now gas) path depth) st

/-- The walk started at the root handle: `scan(dirHandle, '', 0)` with the
same entry guards, and a full depth budget. -/
def scanDirectoryRaw (cfg : ScanConfig) (now : Nat) (roots : List DiskNode) :
    ScanState :=
  if 0 > cfg.maxDepth then { files := [], count := 0, nextId := 0 }
  else if 0 >= cfg.maxFiles then { files := [], count := 0, nextId := 0 }
  else scanEntries cfg now (cfg.maxDepth + 1) roots [] 0
    { files := [], count := 0, nextId := 0 }

/-- JS `path.split('/')`. -/
def splitSlash : Path -> List Path
  | [] => [[]]
  | c :: rest =>
      if c = '/' then [] :: splitSlash rest
      else
        match splitSlash rest with
        | [] => [[c]]
        | seg :: segs => (c :: seg) :: segs

/-- Join of path segments with '/'. -/
def joinSlash : List Path -> Path
  | [] => []
  | [seg] => seg
  | seg :: rest => seg ++ '/' :: joinSlash rest

/-- The ancestor folder paths scanDirectory computes for a file path (lines
240-249): the joins of the first i+1 segments, for i up to the second-to-last
segment. -/
def ancestorPaths (p : Path) : List Path :=
  (List.range ((splitSlash p).length - 1)).map
    (fun i => joinSlash ((splitSlash p).take (i + 1)))

/-- The allowed-id set built by scanDirectory's second pass (lines 232-251):
every file id, plus the id of the first pushed folder whose path matches each
ancestor path of each file. -/
def allowedIdsOf (files : List VirtualFile) : List Nat :=
  files.foldl (fun acc f =>
    if f.type == FType.file then
      (ancestorPaths f.path).foldl (fun acc2 ap =>
        match files.find? (fun dir => dir.path == ap && dir.type == FType.folder) with
        | some folder => folder.id :: acc2
        | none => acc2) (f.id :: acc)
    else acc) []

/-- scanDirectory from src/lib/file-system.ts (lines 124-255): the recursive
walk, then the filter keeping only entries whose id was allowed (all files,
and the folders with an allowed file among their descendants). -/
def scanDirectory (cfg : ScanConfig) (now : Nat) (roots : List DiskNode) :
    List VirtualFile :=
  (scanDirectoryRaw cfg now roots).files.filter
    (fun f => (allowedIdsOf (scanDirectoryRaw cfg now roots).files).contains f.id)

/-- The per-entry property of scan output used by the specification: no
web-only entries, files pass the extension filter, folders are not ignored,
and paths stay within the depth budget. -/
def scanEntryOk (cfg : ScanConfig) (e : VirtualFile) : Prop :=
  e.isWebOnly = false ∧
  (e.type = FType.file -> isAllowedFile e.virtualName cfg.allowedExtensions = true) ∧
  (e.type = FType.folder -> isIgnoredFolder e.virtualName cfg.ignoredFolders = false) ∧
  (splitSlash e.path).length ≤ cfg.maxDepth + 1

/-- The state invariant of the scanDirectory walk: the file counter counts
exactly the pushed file entries and respects the cap, ids are fresh and
pairwise distinct, and every pushed entry satisfies scanEntryOk. -/
def ScanStInv (cfg : ScanConfig) (st : ScanState) : Prop :=
  (st.files.filter (fun e => e.type == FType.file)).length = st.count ∧
  st.count ≤ cfg.maxFiles ∧
  (∀ e ∈ st.files, e.id < st.nextId) ∧
  ((st.files.map (fun e => e.id)).Nodup) ∧
  (∀ e ∈ st.files, scanEntryOk cfg e)

/-- The relation between the walk's current path and depth: empty at the
root, otherwise exactly `depth` segments. -/
def PathDepthOk (path : Path) (depth : Nat) : Prop :=
  (path = [] ∧ depth = 0) ∨ (path ≠ [] ∧ (splitSlash path).length = depth)

/-- Helper lemma: one per-entry check never touches `isDirty`. -/
theorem checkFileChange_isDirty (f : VirtualFile) (q : PermissionState) (m now : Nat) :
    (checkFileChange f q m now).isDirty = f.isDirty := by
  unfold checkFileChange
  split
  · rfl
  · split
    · rfl
    · split
      · rfl
      · split <;> rfl

/-- Helper lemma: one per-entry check on a dirty entry either leaves it
untouched or produces status `conflict`. -/
theorem checkFileChange_dirty_cases (f : VirtualFile) (q : PermissionState) (m now : Nat)
    (h : f.isDirty = true) :
    checkFileChange f q m now = f ∨
      (checkFileChange f q m now).status = FileStatus.conflict := by
  unfold checkFileChange
  split
  · exact Or.inl rfl
  · split
    · exact Or.inl rfl
    · split
      · exact Or.inl rfl
      · rw [h]
        simp

/-- Helper lemma: a sequence of per-entry checks on a dirty entry never
reaches status `synced` when it did not start there. -/
theorem applyChecks_dirty_not_synced (obs : List CheckObs) (f : VirtualFile)
    (hd : f.isDirty = true) (hs : f.status ≠ FileStatus.synced) :
    (applyChecks f obs).status ≠ FileStatus.synced := by
  induction obs generalizing f with
  | nil => exact hs
  | cons o rest ih =>
      have hd1 : (checkFileChange f o.1 o.2.1 o.2.2).isDirty = true := by
        rw [checkFileChange_isDirty]; exact hd
      have hs1 : (checkFileChange f o.1 o.2.1 o.2.2).status ≠ FileStatus.synced := by
        rcases checkFileChange_dirty_cases f o.1 o.2.1 o.2.2 hd with h | h
        · rw [h]; exact hs
        · rw [h]; intro hc; cases hc
      exact ih _ hd1 hs1

/-- Claim C1, counterexample: the claim states that whenever the freshly
observed disk lastModified `m` is at most the stored `diskLastModified`, no
field of the entry changes. For a stored timestamp `0` (a legal JS epoch
value) and `m = 0` the skip guard `file.diskLastModified && m <= stored` is
falsy on its first conjunct, so checkFileChange runs the auto-reload branch
and mutates the entry (here `lastSyncedAt` becomes 100). -/
theorem claim_C1_counterexample :
    sampleClean.hasFileHandle = true ∧ sampleClean.isWebOnly = false ∧
    sampleClean.isDirty = false ∧
    sampleClean.diskLastModified = some 0 ∧ (0 : Nat) ≤ 0 ∧
    checkFileChange sampleClean PermissionState.granted 0 100 ≠ sampleClean := by
  refine ⟨rfl, rfl, rfl, rfl, Nat.le_refl 0, ?_⟩
  decide

/-- Claim C1, amended: for a disk-backed, non-web-only entry checked with
permission granted and freshly observed disk lastModified `m`: if the stored
`diskLastModified` is non-null, nonzero and at least `m`, no field changes;
otherwise (stored null or zero, or `m` strictly newer) a clean entry adopts
`diskLastModified = m`, `status = synced` and `lastSyncedAt = now` with every
other field (in particular `contentOverride`, hence a null override stays
null) unchanged except `updatedAt`, while a dirty entry gets
`status = conflict` and `diskLastModified = m` with `contentOverride` and
`isDirty` untouched. -/
theorem claim_C1 (f : VirtualFile) (m now : Nat)
    (hH : f.hasFileHandle = true) (hW : f.isWebOnly = false) :
    (∀ d, f.diskLastModified = some d → d ≠ 0 → m ≤ d →
      checkFileChange f PermissionState.granted m now = f) ∧
    ((f.diskLastModified = none ∨ f.diskLastModified = some 0 ∨
        (∃ d, f.diskLastModified = some d ∧ d < m)) →
      (f.isDirty = false →
        checkFileChange f PermissionState.granted m now =
          { f with
              diskLastModified := some m, lastSyncedAt := now,
              status := FileStatus.synced, updatedAt := now }) ∧
      (f.isDirty = true →
        checkFileChange f PermissionState.granted m now =
          { f with
              status := FileStatus.conflict, diskLastModified := some m,
              updatedAt := now })) := by
  constructor
  · intro d hdlm hd0 hmd
    unfold checkFileChange
    rw [hH, hW]
    simp [hasFilePermission, jsSkipGuard, hdlm, hd0, hmd]
  · intro hguard
    have hg : jsSkipGuard f.diskLastModified m = false := by
      rcases hguard with h | h | ⟨d, hd, hlt⟩
      · rw [h]; rfl
      · rw [h]; simp [jsSkipGuard]
      · rw [hd]; simp [jsSkipGuard]; omega
    constructor
    · intro hdirty
      unfold checkFileChange
      rw [hH, hW]
      simp [hasFilePermission, hg, hdirty]
    · intro hdirty
      unfold checkFileChange
      rw [hH, hW]
      simp [hasFilePermission, hg, hdirty]

/-- Claim C1, witness: the amended theorem applied to the sample dirty entry
with stored `diskLastModified = 3` and a newer disk timestamp `5`. -/
theorem claim_C1_witness :
    sampleDirty.hasFileHandle = true ∧ sampleDirty.isWebOnly = false ∧
    ((∀ d, sampleDirty.diskLastModified = some d → d ≠ 0 → 5 ≤ d →
      checkFileChange sampleDirty PermissionState.granted 5 9 = sampleDirty) ∧
    ((sampleDirty.diskLastModified = none ∨ sampleDirty.diskLastModified = some 0 ∨
        (∃ d, sampleDirty.diskLastModified = some d ∧ d < 5)) →
      (sampleDirty.isDirty = false →
        checkFileChange sampleDirty PermissionState.granted 5 9 =
          { sampleDirty with
              diskLastModified := some 5, lastSyncedAt := 9,
              status := FileStatus.synced, updatedAt := 9 }) ∧
      (sampleDirty.isDirty = true →
        checkFileChange sampleDirty PermissionState.granted 5 9 =
          { sampleDirty with
              status := FileStatus.conflict, diskLastModified := some 5,
              updatedAt := 9 }))) :=
  ⟨rfl, rfl, claim_C1 sampleDirty 5 9 rfl rfl⟩

/-- Claim C2: for a dirty entry, one per-entry reconciliation step either
leaves the entry untouched or produces status `conflict` (never `synced`); any
sequence of such steps keeps the status away from `synced`; and the explicit
resolution `use-disk` is what yields `synced`. -/
theorem claim_C2 (f : VirtualFile) (hd : f.isDirty = true) :
    (∀ (q : PermissionState) (m now : Nat),
      checkFileChange f q m now = f ∨
        (checkFileChange f q m now).status = FileStatus.conflict) ∧
    (∀ obs : List CheckObs, f.status ≠ FileStatus.synced →
      (applyChecks f obs).status ≠ FileStatus.synced) ∧
    (∀ dm now : Nat, f.hasFileHandle = true →
      (resolveConflict f Resolution.useDisk dm now).status = FileStatus.synced) := by
  refine ⟨fun q m now => checkFileChange_dirty_cases f q m now hd,
          fun obs hs => applyChecks_dirty_not_synced obs f hd hs,
          fun dm now hH => ?_⟩
  unfold resolveConflict
  rw [hH]
  rfl

/-- Claim C2, witness: the theorem applied to the sample dirty entry. -/
theorem claim_C2_witness :
    sampleDirty.isDirty = true ∧
    ((∀ (q : PermissionState) (m now : Nat),
      checkFileChange sampleDirty q m now = sampleDirty ∨
        (checkFileChange sampleDirty q m now).status = FileStatus.conflict) ∧
    (∀ obs : List CheckObs, sampleDirty.status ≠ FileStatus.synced →
      (applyChecks sampleDirty obs).status ≠ FileStatus.synced) ∧
    (∀ dm now : Nat, sampleDirty.hasFileHandle = true →
      (resolveConflict sampleDirty Resolution.useDisk dm now).status =
        FileStatus.synced)) :=
  ⟨rfl, claim_C2 sampleDirty rfl⟩

/-- Helper lemma: one per-entry check either takes one of the early-return
branches (and its early condition holds), or all guards fail and it produces
exactly the conflict or auto-reload record. All branch conditions are
independent of `now`. -/
theorem checkFileChange_branches (f : VirtualFile) (q : PermissionState) (m now : Nat) :
    (((!f.hasFileHandle || f.isWebOnly) = true ∨ hasFilePermission q = false ∨
        jsSkipGuard f.diskLastModified m = true) ∧
      checkFileChange f q m now = f) ∨
    ((!f.hasFileHandle || f.isWebOnly) = false ∧ hasFilePermission q = true ∧
      jsSkipGuard f.diskLastModified m = false ∧
      checkFileChange f q m now =
        (if f.isDirty then
          { f with
              status := FileStatus.conflict, diskLastModified := some m,
              updatedAt := now }
         else
          { f with
              diskLastModified := some m, lastSyncedAt := now,
              status := FileStatus.synced, updatedAt := now })) := by
  by_cases hH : (!f.hasFileHandle || f.isWebOnly) = true
  · exact Or.inl ⟨Or.inl hH, by simp [checkFileChange, hH]⟩
  · by_cases hq : hasFilePermission q = true
    · by_cases hg : jsSkipGuard f.diskLastModified m = true
      · exact Or.inl ⟨Or.inr (Or.inr hg), by simp [checkFileChange, hH, hq, hg]⟩
      · refine Or.inr ⟨by simpa using hH, hq, by simpa using hg, ?_⟩
        by_cases hd : f.isDirty
        · simp [checkFileChange, hH, hq, hg, hd]
        · simp [checkFileChange, hH, hq, hg, hd]
    · exact Or.inl ⟨Or.inr (Or.inl (by simpa using hq)),
        by simp [checkFileChange, hq]⟩

/-- Claim C8: running the per-entry check twice with the same observed disk
lastModified and permission yields the same `status` and `diskLastModified`
after both runs as after the first run alone. -/
theorem claim_C8 (f : VirtualFile) (q : PermissionState) (m t1 t2 : Nat) :
    (checkFileChange (checkFileChange f q m t1) q m t2).status =
        (checkFileChange f q m t1).status ∧
    (checkFileChange (checkFileChange f q m t1) q m t2).diskLastModified =
        (checkFileChange f q m t1).diskLastModified := by
  rcases checkFileChange_branches f q m t1 with ⟨hc, he⟩ | ⟨h1, h2, h3, he⟩
  · rw [he]
    rcases checkFileChange_branches f q m t2 with ⟨_, he2⟩ | ⟨h1', h2', h3', _⟩
    · rw [he2]; exact ⟨rfl, rfl⟩
    · rcases hc with hc | hc | hc
      · rw [hc] at h1'; cases h1'
      · rw [h2'] at hc; cases hc
      · rw [hc] at h3'; cases h3'
  · rw [he]
    have hq : q = PermissionState.granted := by
      simpa [hasFilePermission] using h2
    by_cases hm : m = 0
    · by_cases hd : f.isDirty
      · simp [checkFileChange, hasFilePermission, jsSkipGuard, hm, hd, h1, h2, hq]
      · simp [checkFileChange, hasFilePermission, jsSkipGuard, hm, hd, h1, h2, hq]
    · by_cases hd : f.isDirty
      · simp [checkFileChange, hasFilePermission, jsSkipGuard, hm, hd, h1, h2, hq]
      · simp [checkFileChange, hasFilePermission, jsSkipGuard, hm, hd, h1, h2, hq]


/-- Helper lemma: putting a record whose id is absent just appends it. -/
theorem dbPut_fresh (acc : List VirtualFile) (g : VirtualFile)
    (h : forall f, f ∈ acc -> g.id ≠ f.id) : dbPut acc g = acc ++ [g] := by
  unfold dbPut
  rw [if_neg]
  intro hc
  rcases List.any_eq_true.mp hc with ⟨f, hf, hid⟩
  have hfe : f.id = g.id := by simpa using hid
  exact h f hf hfe.symm

/-- Helper lemma: a bulk put of records with fresh, pairwise distinct ids is
exactly an append. -/
theorem dbPutMany_eq_append (L : List VirtualFile) (acc : List VirtualFile)
    (hfr : forall g, g ∈ L -> forall f, f ∈ acc -> g.id ≠ f.id)
    (hnd : (L.map (fun g => g.id)).Nodup) : dbPutMany acc L = acc ++ L := by
  induction L generalizing acc with
  | nil => simp [dbPutMany]
  | cons g L2 ih =>
      have hnd2 : (g.id :: L2.map (fun x => x.id)).Nodup := by simpa using hnd
      have h2 := List.nodup_cons.mp hnd2
      have h1 : dbPut acc g = acc ++ [g] :=
        dbPut_fresh acc g (fun f hf => hfr g (List.mem_cons_self g L2) f hf)
      have hstep : dbPutMany acc (g :: L2) = dbPutMany (acc ++ [g]) L2 := by
        unfold dbPutMany
        rw [List.foldl_cons, h1]
      have hfr2 : forall h3, h3 ∈ L2 -> forall f, f ∈ acc ++ [g] -> h3.id ≠ f.id := by
        intro h3 hh3 f hf
        rcases List.mem_append.mp hf with hf | hf
        · exact hfr h3 (List.mem_cons_of_mem g hh3) f hf
        · rcases List.mem_singleton.mp hf with rfl
          intro he
          apply h2.1
          rw [← he]
          exact List.mem_map_of_mem (fun x => x.id) hh3
      rw [hstep, ih (acc ++ [g]) hfr2 h2.2]
      simp

/-- Claim C6, counterexample: the claim states that a timer check whose
permission query is not granted leaves entries untouched and sets the
process-wide permissionLost flag. The first half holds, but checkFileChange
in polling.ts skips silently without ever writing the permissionLost signal:
after the denied tick the flag is still false. -/
theorem claim_C6_counterexample :
    hasFilePermission PermissionState.denied = false ∧
    (checkFileChangeDB ⟨[sampleDirty], false⟩ 1 PermissionState.denied 7 9).files
      = [sampleDirty] ∧
    (checkFileChangeDB ⟨[sampleDirty], false⟩ 1 PermissionState.denied 7 9).permissionLost
      = false := by
  decide

/-- Claim C6, amended: a timer-driven per-entry check whose queryPermission
does not return granted mutates nothing at all - the entry table and the
permissionLost flag are both left exactly as they were (the flag is raised
only by the explicit content-access operations in virtual-fs.ts, not by timer
checks). -/
theorem claim_C6 (st : SyncState) (fid : Nat) (q : PermissionState) (m now : Nat)
    (hq : hasFilePermission q = false) :
    checkFileChangeDB st fid q m now = st := by
  unfold checkFileChangeDB
  cases hfind : st.files.find? (fun g => g.id == fid) with
  | none => rfl
  | some f => simp [hq]

/-- Claim C6, witness: the amended theorem applied to a one-entry store with
permission state prompt. -/
theorem claim_C6_witness :
    hasFilePermission PermissionState.prompt = false ∧
    checkFileChangeDB ⟨[sampleClean], false⟩ 0 PermissionState.prompt 4 8 =
      ⟨[sampleClean], false⟩ :=
  ⟨rfl, claim_C6 ⟨[sampleClean], false⟩ 0 PermissionState.prompt 4 8 rfl⟩

/-- Claim C9: a run of the lightweight directory scan equals the old store
plus the new-path disk entries appended; hence every stored entry - in
particular every non-web-only entry whose path is absent from the disk scan -
is still present unchanged, and every disk entry with a new path is inserted. -/
theorem claim_C9 (existing scanned : List VirtualFile)
    (hfresh : forall g, g ∈ scanned -> forall f, f ∈ existing -> g.id ≠ f.id)
    (hnd : (scanned.map (fun g => g.id)).Nodup) :
    pollForNewFiles existing scanned =
      existing ++ scanned.filter
        (fun g => !((existing.map (fun f => f.path)).contains g.path)) ∧
    (forall f, f ∈ existing -> f.isWebOnly = false ->
      (scanned.map (fun g => g.path)).contains f.path = false ->
      f ∈ pollForNewFiles existing scanned) ∧
    (forall g, g ∈ scanned ->
      (existing.map (fun f => f.path)).contains g.path = false ->
      g ∈ pollForNewFiles existing scanned) := by
  have heq : pollForNewFiles existing scanned =
      existing ++ scanned.filter
        (fun g => !((existing.map (fun f => f.path)).contains g.path)) := by
    unfold pollForNewFiles
    refine dbPutMany_eq_append _ _ ?_ ?_
    · intro g hg f hf
      exact hfresh g (List.mem_of_mem_filter hg) f hf
    · exact hnd.sublist (List.Sublist.map _ (List.filter_sublist scanned))
  refine ⟨heq, ?_, ?_⟩
  · intro f hf _ _
    rw [heq]
    exact List.mem_append_left _ hf
  · intro g hg hc
    rw [heq]
    refine List.mem_append_right _ (List.mem_filter.mpr ⟨hg, ?_⟩)
    rw [hc]
    rfl

/-- Claim C9, witness: the theorem applied to a store holding one synced
entry and a scan that found one genuinely new file. -/
theorem claim_C9_witness :
    (forall g, g ∈ [sampleNew] -> forall f, f ∈ [sampleClean] -> g.id ≠ f.id) ∧
    (([sampleNew].map (fun g => g.id)).Nodup) ∧
    (pollForNewFiles [sampleClean] [sampleNew] =
      [sampleClean] ++ [sampleNew].filter
        (fun g => !(([sampleClean].map (fun f => f.path)).contains g.path)) ∧
    (forall f, f ∈ [sampleClean] -> f.isWebOnly = false ->
      ([sampleNew].map (fun g => g.path)).contains f.path = false ->
      f ∈ pollForNewFiles [sampleClean] [sampleNew]) ∧
    (forall g, g ∈ [sampleNew] ->
      (([sampleClean].map (fun f => f.path)).contains g.path) = false ->
      g ∈ pollForNewFiles [sampleClean] [sampleNew])) :=
  ⟨by decide, by decide, claim_C9 [sampleClean] [sampleNew] (by decide) (by decide)⟩

/-- Claim C4, counterexample: the claim states a reader during a rescan sees
either the complete pre-rescan set or the complete post-rescan set. The
rescan issues clearAllFiles and saveFiles as two separate transactions, and a
reader at the await point between them observes the empty table, which is
neither. -/
theorem claim_C4_counterexample :
    statesDuring [sampleClean] (rescanOps [sampleDirty]) =
      [[sampleClean], [], [sampleDirty]] ∧
    ([] : List VirtualFile) ≠ [sampleClean] ∧
    ([] : List VirtualFile) ≠ [sampleDirty] := by
  decide

/-- Claim C4, amended: a reader interleaved anywhere around the two rescan
transactions observes the complete pre-rescan set, the empty set (between the
clear and the bulk insert), or the complete post-rescan set - never any other
partial mixture. -/
theorem claim_C4 (pre allFiles : List VirtualFile) (s : List VirtualFile)
    (hs : s ∈ statesDuring pre (rescanOps allFiles)) :
    s = pre ∨ s = [] ∨ s = dbPutMany [] allFiles := by
  simp only [statesDuring, rescanOps, applyStoreOp, List.mem_cons,
    List.mem_singleton, List.not_mem_nil] at hs
  rcases hs with h | h | h
  · exact Or.inl h
  · exact Or.inr (Or.inl h)
  · rcases h with h | h
    · exact Or.inr (Or.inr h)
    · cases h

/-- Claim C4, witness: the amended theorem applied to the observation of the
middle (empty) state. -/
theorem claim_C4_witness :
    (([] : List VirtualFile) ∈ statesDuring [sampleClean] (rescanOps [sampleDirty])) ∧
    (([] : List VirtualFile) = [sampleClean] ∨ ([] : List VirtualFile) = [] ∨
      ([] : List VirtualFile) = dbPutMany [] [sampleDirty]) :=
  ⟨by decide, claim_C4 [sampleClean] [sampleDirty] [] (by decide)⟩


/-- Helper lemma: a path without a slash is its own first segment. -/
theorem firstSeg_of_noslash (p : Path) (h : '/' ∉ p) : firstSeg p = p := by
  unfold firstSeg
  induction p with
  | nil => rfl
  | cons c cs ih =>
      rw [List.mem_cons, not_or] at h
      have hc : (c != '/') = true := by
        simp only [bne_iff_ne, ne_eq]
        exact fun e => h.1 e.symm
      rw [List.takeWhile_cons, hc]
      simp [ih h.2]

/-- Helper lemma: the first segment of `a ++ '/' :: rest` is `a` when `a` has
no slash. -/
theorem firstSeg_append_slash (a rest : Path) (h : '/' ∉ a) :
    firstSeg (a ++ '/' :: rest) = a := by
  unfold firstSeg
  induction a with
  | nil => simp [List.takeWhile_cons]
  | cons c cs ih =>
      rw [List.mem_cons, not_or] at h
      have hc : (c != '/') = true := by
        simp only [bne_iff_ne, ne_eq]
        exact fun e => h.1 e.symm
      rw [List.cons_append, List.takeWhile_cons, hc]
      simpa using ih h.2

/-- Helper lemma: a first segment contains no slash. -/
theorem noslash_firstSeg (p : Path) : '/' ∉ firstSeg p := by
  intro hmem
  have := List.mem_takeWhile_imp hmem
  simp at this

/-- Helper lemma: a Boolean path-prefix of the form `a ++ ['/']` decomposes
the longer path. -/
theorem prefix_slash_decomp (a p : Path) (h : (a ++ ['/']).isPrefixOf p = true) :
    ∃ rest, p = a ++ '/' :: rest := by
  rcases List.isPrefixOf_iff_prefix.mp h with ⟨t, ht⟩
  exact ⟨t, by rw [← ht]; simp⟩

/-- Helper lemma: dropWhile distributes over an append whose right part starts
with (in fact consists of) elements failing the predicate. -/
theorem dropWhile_append_nofirst (q : Char -> Bool) (xs ys : Path)
    (hys : ∀ c ∈ ys, q c = false) (hne : ys ≠ []) :
    (xs ++ ys).dropWhile q = xs.dropWhile q ++ ys := by
  induction xs with
  | nil =>
      cases ys with
      | nil => cases hne rfl
      | cons c cs =>
          simp [List.dropWhile_cons, hys c (List.mem_cons_self c cs)]
  | cons x xs2 ih =>
      rw [List.cons_append, List.dropWhile_cons, List.dropWhile_cons]
      by_cases hqx : q x = true
      · simp [hqx, ih]
      · simp [hqx]

/-- Helper lemma: stripping trailing slashes distributes over an append whose
left part has no slash. -/
theorem strip_append_noslash (a b : Path) (h : '/' ∉ a) :
    stripTrailingSlashes (a ++ b) = a ++ stripTrailingSlashes b := by
  unfold stripTrailingSlashes
  cases haa : a with
  | nil => simp
  | cons c cs =>
      rw [← haa]
      have hys : ∀ x ∈ a.reverse, (fun c => c == '/') x = false := by
        intro x hx
        have hxa : x ∈ a := List.mem_reverse.mp hx
        simp only [beq_eq_false_iff_ne, ne_eq]
        exact fun e => h (e ▸ hxa)
      have hne : a.reverse ≠ [] := by simp [haa]
      rw [List.reverse_append, dropWhile_append_nofirst _ _ _ hys hne,
        List.reverse_append, List.reverse_reverse]

/-- Helper lemma: the stripped path is a prefix of the original. -/
theorem strip_is_front (q : Path) : ∃ t, q = stripTrailingSlashes q ++ t := by
  have hsuf : q.reverse.dropWhile (fun c => c == '/') <:+ q.reverse :=
    List.dropWhile_suffix _
  rcases hsuf with ⟨u, hu⟩
  refine ⟨u.reverse, ?_⟩
  unfold stripTrailingSlashes
  calc q = (q.reverse).reverse := by rw [List.reverse_reverse]
    _ = (u ++ q.reverse.dropWhile (fun c => c == '/')).reverse := by rw [hu]
    _ = (q.reverse.dropWhile (fun c => c == '/')).reverse ++ u.reverse := by
          rw [List.reverse_append]

/-- Helper lemma: stripping `'/' :: s` yields the empty path or a path that
starts with '/'. -/
theorem stripSlash_shape (s : Path) :
    stripTrailingSlashes ('/' :: s) = [] ∨
      ∃ t, stripTrailingSlashes ('/' :: s) = '/' :: t := by
  rcases strip_is_front ('/' :: s) with ⟨t, ht⟩
  cases hx : stripTrailingSlashes ('/' :: s) with
  | nil => exact Or.inl rfl
  | cons c cs =>
      refine Or.inr ⟨cs, ?_⟩
      rw [hx] at ht
      have : c = '/' := by
        have := congrArg (fun l => l.head?) ht
        simpa using this.symm
      rw [this]

/-- Helper lemma: the first segment of the root-prepended path of a scanned
entry is the root, for a slash-free root. -/
theorem prependPath_firstSeg (front : Path) (f : VirtualFile) (h : '/' ∉ front) :
    firstSeg (prependPath front f).path = front := by
  show firstSeg (stripTrailingSlashes (front ++ '/' :: f.path)) = front
  rw [strip_append_noslash front ('/' :: f.path) h]
  rcases stripSlash_shape f.path with hs | ⟨t, hs⟩
  · rw [hs, List.append_nil]
    exact firstSeg_of_noslash front h
  · rw [hs]
    exact firstSeg_append_slash front t h

/-- Helper lemma: a member of a put is an old member or the put record. -/
theorem mem_dbPut (x g : VirtualFile) (acc : List VirtualFile)
    (h : x ∈ dbPut acc g) : x ∈ acc ∨ x = g := by
  unfold dbPut at h
  split at h
  · rcases List.mem_map.mp h with ⟨y, hy, he⟩
    by_cases hid : (y.id == g.id) = true
    · rw [if_pos hid] at he
      exact Or.inr he.symm
    · rw [if_neg hid] at he
      exact Or.inl (he ▸ hy)
  · rcases List.mem_append.mp h with h | h
    · exact Or.inl h
    · exact Or.inr (List.mem_singleton.mp h)

/-- Helper lemma: a member of a bulk put is an old member or one of the put
records. -/
theorem mem_dbPutMany (x : VirtualFile) (acc L : List VirtualFile)
    (h : x ∈ dbPutMany acc L) : x ∈ acc ∨ x ∈ L := by
  induction L generalizing acc with
  | nil => exact Or.inl h
  | cons g L2 ih =>
      have h2 : x ∈ dbPutMany (dbPut acc g) L2 := by
        simpa [dbPutMany, List.foldl_cons] using h
      rcases ih (dbPut acc g) h2 with h3 | h3
      · rcases mem_dbPut x g acc h3 with h4 | h4
        · exact Or.inl h4
        · rw [h4]
          exact Or.inr (List.mem_cons_self g L2)
      · exact Or.inr (List.mem_cons_of_mem g h3)

/-- Helper lemma: a bulk put into the empty table of records with pairwise
distinct ids is the list itself. -/
theorem dbPutMany_nil_of_nodup (L : List VirtualFile)
    (hnd : (L.map (fun g => g.id)).Nodup) : dbPutMany [] L = L := by
  have := dbPutMany_eq_append L [] (fun g hg f hf => absurd hf (List.not_mem_nil f)) hnd
  simpa using this

/-- Helper lemma: every entry in the set produced by a full rescan has the
rescanned root as its first path segment. -/
theorem fullRescan_firstSeg (existing scanned : List VirtualFile)
    (rootName : Path) (rid now : Nat) (hroot : '/' ∉ rootName) :
    ∀ g ∈ fullRescanFromDisk existing scanned rootName rid now,
      firstSeg g.path = rootName := by
  intro g hg
  rcases mem_dbPutMany g [] _ hg with h | h
  · cases h
  · unfold fullRescanAllFiles at h
    rcases List.mem_cons.mp h with rfl | h
    · exact firstSeg_of_noslash rootName hroot
    · rcases List.mem_append.mp h with h | h
      · rcases List.mem_map.mp h with ⟨s, hs, rfl⟩
        exact prependPath_firstSeg rootName s hroot
      · have hcond := (List.mem_filter.mp h).2
        rw [Bool.and_eq_true] at hcond
        rcases prefix_slash_decomp _ _ hcond.2 with ⟨rest, hrest⟩
        rw [hrest]
        exact firstSeg_append_slash rootName rest hroot

/-- Helper lemma: on the success path the synced folder entry is a folder and
the new set is the bulk put of syncFolderAllFiles. -/
theorem syncFolder_some (existing scanned : List VirtualFile)
    (folderId now : Nat) (out : List VirtualFile) (file : VirtualFile)
    (hfind : existing.find? (fun g => g.id == folderId) = some file)
    (hout : syncFolderFromDisk existing folderId scanned now = some out) :
    file.type = FType.folder ∧
      out = dbPutMany [] (syncFolderAllFiles existing file scanned now) := by
  unfold syncFolderFromDisk at hout
  rw [hfind] at hout
  have hout2 : (if (file.type != FType.folder) = true then none
      else some (dbPutMany [] (syncFolderAllFiles existing file scanned now))) =
        some out := hout
  by_cases ht : (file.type != FType.folder) = true
  · rw [if_pos ht] at hout2
    cases hout2
  · rw [if_neg ht] at hout2
    refine ⟨by simpa using ht, (Option.some.injEq _ _ ▸ hout2).symm⟩

/-- Helper lemma: an existing entry whose first path segment differs from the
synced folder's root is kept verbatim in syncFolderAllFiles (it lands in
filesFromOtherRoots). -/
theorem syncFolder_other_root_mem (existing scanned : List VirtualFile)
    (file f : VirtualFile) (now : Nat) (hf : f ∈ existing)
    (hseg : firstSeg f.path ≠ firstSeg file.path) :
    f ∈ syncFolderAllFiles existing file scanned now := by
  unfold syncFolderAllFiles
  simp only []
  apply List.mem_append_left
  apply List.mem_append_left
  apply List.mem_append_left
  apply List.mem_append_left
  refine List.mem_filter.mpr ⟨hf, ?_⟩
  rw [Bool.and_eq_true]
  constructor
  · simp only [bne_iff_ne, ne_eq]
    intro e
    apply hseg
    rw [e]
    exact firstSeg_of_noslash _ (noslash_firstSeg file.path)
  · simp only [Bool.not_eq_true']
    by_contra hc
    rw [Bool.not_eq_false] at hc
    rcases prefix_slash_decomp _ _ hc with ⟨rest, hrest⟩
    apply hseg
    rw [hrest]
    exact firstSeg_append_slash _ rest (noslash_firstSeg file.path)

/-- Claim C3, counterexample: the claim states that a full-project rescan
leaves every entry of other roots present and unchanged. fullRescanFromDisk
clears the whole table and re-inserts only the rescanned root's disk entries
and its web-only entries, so an entry of root "q" disappears when root "r" is
rescanned. -/
theorem claim_C3_counterexample :
    sampleOtherRoot ∈ [sampleOtherRoot] ∧
    firstSeg sampleOtherRoot.path ≠ toPath ("r") ∧
    sampleOtherRoot ∉ fullRescanFromDisk [sampleOtherRoot] [] (toPath ("r")) 9 10 ∧
    (fullRescanFromDisk [sampleOtherRoot] [] (toPath ("r")) 9 10).all
      (fun g => g.path != sampleOtherRoot.path) = true := by
  decide

/-- Claim C3, amended: a full-project rescan keeps only entries whose first
path segment is the rescanned root (every entry of another root is dropped
from the persisted set); it is the scoped-folder rescan that preserves every
entry whose first path segment differs from the synced folder's root,
verbatim. -/
theorem claim_C3 (existing scanned scanned2 : List VirtualFile)
    (rootName : Path) (rid now folderId now2 : Nat) (out : List VirtualFile)
    (file f1 f2 : VirtualFile)
    (hroot : '/' ∉ rootName)
    (hf1 : f1 ∈ existing) (hseg1 : firstSeg f1.path ≠ rootName)
    (hfind : existing.find? (fun g => g.id == folderId) = some file)
    (hout : syncFolderFromDisk existing folderId scanned2 now2 = some out)
    (hnd2 : ((syncFolderAllFiles existing file scanned2 now2).map
      (fun g => g.id)).Nodup)
    (hf2 : f2 ∈ existing) (hseg2 : firstSeg f2.path ≠ firstSeg file.path) :
    f1 ∉ fullRescanFromDisk existing scanned rootName rid now ∧ f2 ∈ out := by
  constructor
  · intro hmem
    exact hseg1 (fullRescan_firstSeg existing scanned rootName rid now hroot f1 hmem)
  · rcases syncFolder_some existing scanned2 folderId now2 out file hfind hout
      with ⟨_, hval⟩
    rw [hval, dbPutMany_nil_of_nodup _ hnd2]
    exact syncFolder_other_root_mem existing scanned2 file f2 now2 hf2 hseg2

/-- Claim C3, witness: root "r" is fully rescanned while the store holds an
entry of root "q", and the stored "r" folder is scope-rescanned - the "q"
entry is absent from the former result and present in the latter. -/
theorem claim_C3_witness :
    ('/' ∉ toPath ("r")) ∧
    (sampleOtherRoot ∈ [sampleRoot, sampleOtherRoot]) ∧
    (firstSeg sampleOtherRoot.path ≠ toPath ("r")) ∧
    ([sampleRoot, sampleOtherRoot].find? (fun g => g.id == 4) = some sampleRoot) ∧
    (syncFolderFromDisk [sampleRoot, sampleOtherRoot] 4 [] 8 =
      some (dbPutMany [] (syncFolderAllFiles [sampleRoot, sampleOtherRoot]
        sampleRoot [] 8))) ∧
    (((syncFolderAllFiles [sampleRoot, sampleOtherRoot] sampleRoot [] 8).map
      (fun g => g.id)).Nodup) ∧
    (firstSeg sampleOtherRoot.path ≠ firstSeg sampleRoot.path) ∧
    (sampleOtherRoot ∉ fullRescanFromDisk [sampleRoot, sampleOtherRoot] []
        (toPath ("r")) 9 10 ∧
      sampleOtherRoot ∈ dbPutMany [] (syncFolderAllFiles
        [sampleRoot, sampleOtherRoot] sampleRoot [] 8)) :=
  ⟨by decide, by decide, by decide, by decide, by decide, by decide, by decide,
    claim_C3 [sampleRoot, sampleOtherRoot] [] [] (toPath ("r")) 9 10 4 8
      (dbPutMany [] (syncFolderAllFiles [sampleRoot, sampleOtherRoot] sampleRoot [] 8))
      sampleRoot sampleOtherRoot sampleOtherRoot
      (by decide) (by decide) (by decide) (by decide) (by decide) (by decide)
      (by decide) (by decide)⟩


/-- Helper lemma: an existing web-only entry strictly inside the synced root,
other than the folder entry itself, is kept verbatim in syncFolderAllFiles. -/
theorem syncFolder_webonly_mem (existing scanned : List VirtualFile)
    (file f : VirtualFile) (now : Nat) (hf : f ∈ existing)
    (hweb : f.isWebOnly = true)
    (hpre : ((firstSeg file.path) ++ ['/']).isPrefixOf f.path = true)
    (hid : f.id ≠ file.id) :
    f ∈ syncFolderAllFiles existing file scanned now := by
  unfold syncFolderAllFiles
  by_cases hin : (file.path ++ ['/']).isPrefixOf f.path = true
  · apply List.mem_append_right
    refine List.mem_filter.mpr ⟨?_, ?_⟩
    · refine List.mem_filter.mpr ⟨hf, ?_⟩
      rw [Bool.or_eq_true]
      exact Or.inl hin
    · rw [Bool.and_eq_true]
      refine ⟨hweb, ?_⟩
      simpa [bne_iff_ne] using hid
  · have hroot : (file.path == firstSeg file.path) = false := by
      by_contra hc
      rw [Bool.not_eq_false, beq_iff_eq] at hc
      apply hin
      rw [← hc] at hpre
      exact hpre
    apply List.mem_append_left
    apply List.mem_append_left
    apply List.mem_append_left
    apply List.mem_append_right
    simp only [hroot, Bool.false_eq_true, if_false]
    refine List.mem_filter.mpr ⟨hf, ?_⟩
    rw [Bool.and_eq_true, Bool.and_eq_true]
    refine ⟨⟨?_, ?_⟩, ?_⟩
    · rw [Bool.or_eq_true]
      exact Or.inr hpre
    · rw [Bool.not_eq_true']
      exact Bool.not_eq_true _ ▸ hin
    · simpa [bne_iff_ne] using hid

/-- Helper lemma: the updated folder entry itself is in syncFolderAllFiles. -/
theorem syncFolder_updated_mem (existing scanned : List VirtualFile)
    (file : VirtualFile) (now : Nat) :
    { file with
        hasDirHandle := true, isHidden := false, lastSyncedAt := now,
        status := FileStatus.synced } ∈ syncFolderAllFiles existing file scanned now := by
  unfold syncFolderAllFiles
  apply List.mem_append_left
  apply List.mem_append_left
  apply List.mem_append_right
  exact List.mem_singleton.mpr rfl

/-- Claim C5: across a full rescan of root `rootName`, every existing
web-only entry under that root is kept verbatim in the new persisted set; and
across a scoped rescan of a stored folder, every existing web-only entry
under that folder's root survives with its id and its `contentOverride`
unchanged. -/
theorem claim_C5 (existing scanned scanned2 : List VirtualFile)
    (rootName : Path) (rid now folderId now2 : Nat) (out : List VirtualFile)
    (file f1 f2 : VirtualFile)
    (hnd1 : ((fullRescanAllFiles existing scanned rootName rid now).map
      (fun g => g.id)).Nodup)
    (hf1 : f1 ∈ existing) (hw1 : f1.isWebOnly = true)
    (hp1 : (rootName ++ ['/']).isPrefixOf f1.path = true)
    (hfind : existing.find? (fun g => g.id == folderId) = some file)
    (hout : syncFolderFromDisk existing folderId scanned2 now2 = some out)
    (hnd2 : ((syncFolderAllFiles existing file scanned2 now2).map
      (fun g => g.id)).Nodup)
    (hndEx : (existing.map (fun g => g.id)).Nodup)
    (hf2 : f2 ∈ existing) (hw2 : f2.isWebOnly = true)
    (hp2 : ((firstSeg file.path) ++ ['/']).isPrefixOf f2.path = true) :
    f1 ∈ fullRescanFromDisk existing scanned rootName rid now ∧
    ∃ g ∈ out, g.id = f2.id ∧ g.contentOverride = f2.contentOverride := by
  constructor
  · unfold fullRescanFromDisk
    rw [dbPutMany_nil_of_nodup _ hnd1]
    unfold fullRescanAllFiles
    refine List.mem_cons_of_mem _ (List.mem_append_right _ ?_)
    refine List.mem_filter.mpr ⟨hf1, ?_⟩
    rw [Bool.and_eq_true]
    exact ⟨hw1, hp1⟩
  · rcases syncFolder_some existing scanned2 folderId now2 out file hfind hout
      with ⟨_, hval⟩
    rw [hval, dbPutMany_nil_of_nodup _ hnd2]
    by_cases hid : f2.id = file.id
    · have hfm : file ∈ existing := List.mem_of_find?_eq_some hfind
      have heq : f2 = file := List.inj_on_of_nodup_map hndEx hf2 hfm hid
      refine ⟨{ file with
          hasDirHandle := true, isHidden := false, lastSyncedAt := now2,
          status := FileStatus.synced },
        syncFolder_updated_mem existing scanned2 file now2, ?_, ?_⟩
      · rw [heq]
      · rw [heq]
    · exact ⟨f2, syncFolder_webonly_mem existing scanned2 file f2 now2 hf2 hw2 hp2 hid,
        rfl, rfl⟩

/-- Claim C5, witness: root "r" holds a web-only entry; it survives a full
rescan of "r" verbatim and a scoped rescan of the stored "r" folder with id
and contentOverride unchanged. -/
theorem claim_C5_witness :
    (((fullRescanAllFiles [sampleRoot, sampleWebOnly] [] (toPath ("r")) 9 10).map
      (fun g => g.id)).Nodup) ∧
    (sampleWebOnly ∈ [sampleRoot, sampleWebOnly]) ∧
    (sampleWebOnly.isWebOnly = true) ∧
    ((toPath ("r") ++ ['/']).isPrefixOf sampleWebOnly.path = true) ∧
    ([sampleRoot, sampleWebOnly].find? (fun g => g.id == 4) = some sampleRoot) ∧
    (syncFolderFromDisk [sampleRoot, sampleWebOnly] 4 [] 8 =
      some (dbPutMany [] (syncFolderAllFiles [sampleRoot, sampleWebOnly]
        sampleRoot [] 8))) ∧
    (((syncFolderAllFiles [sampleRoot, sampleWebOnly] sampleRoot [] 8).map
      (fun g => g.id)).Nodup) ∧
    (([sampleRoot, sampleWebOnly].map (fun g => g.id)).Nodup) ∧
    (((firstSeg sampleRoot.path) ++ ['/']).isPrefixOf sampleWebOnly.path = true) ∧
    (sampleWebOnly ∈ fullRescanFromDisk [sampleRoot, sampleWebOnly] []
        (toPath ("r")) 9 10 ∧
      ∃ g ∈ dbPutMany [] (syncFolderAllFiles [sampleRoot, sampleWebOnly]
          sampleRoot [] 8),
        g.id = sampleWebOnly.id ∧ g.contentOverride = sampleWebOnly.contentOverride) :=
  ⟨by decide, by decide, by decide, by decide, by decide, by decide, by decide,
    by decide, by decide,
    claim_C5 [sampleRoot, sampleWebOnly] [] [] (toPath ("r")) 9 10 4 8
      (dbPutMany [] (syncFolderAllFiles [sampleRoot, sampleWebOnly] sampleRoot [] 8))
      sampleRoot sampleWebOnly sampleWebOnly
      (by decide) (by decide) (by decide) (by decide) (by decide) (by decide)
      (by decide) (by decide) (by decide) (by decide) (by decide)⟩


/-- Claim C7, counterexample: the claim states that renaming folder F
rewrites exactly the old-path prefix of every descendant and leaves no stale
old prefix. The descendant pass uses JS String.replace, whose replacement
string interprets dollar escapes: renaming "r/f" to the name "x$$&" stores
the folder path "r/x$&" but rewrites the child "r/f/c.md" to "r/xr/f/c.md"
(the "$&" re-inserts the matched "r/f") instead of "r/x$&/c.md"; and renaming
"r/f" to the name "f/x" leaves the folder itself at path "r/f/x/x", which
still starts with the stale prefix "r/f/". -/
theorem claim_C7_counterexample :
    (renameFile [renameDemoF, renameDemoC] 20 (toPath ("x$$&")) 9).map
        (fun l => l.map (fun g => g.path)) =
      some [toPath ("r/x$&"), toPath ("r/xr/f/c.md")] ∧
    toPath ("r/xr/f/c.md") ≠ replaceLeafJS (toPath ("r/f")) (toPath ("x$$&")) ++
      (toPath ("r/f/c.md")).drop (toPath ("r/f")).length ∧
    replaceLeafJS (toPath ("r/f")) (toPath ("x$$&")) = toPath ("r/x$&") ∧
    (renameFile [renameDemoF] 20 (toPath ("f/x")) 9).map
        (fun l => l.map (fun g => g.path)) = some [toPath ("r/f/x/x")] ∧
    (toPath ("r/f") ++ ['/']).isPrefixOf (toPath ("r/f/x/x")) = true := by
  decide


/-- Helper lemma: a dollar-free replacement string expands to itself. -/
theorem noDollar_expand (m b a : Path) :
    ∀ repl : Path, '$' ∉ repl -> expandReplacement m b a repl = repl := by
  intro repl
  induction repl with
  | nil => intro h; rfl
  | cons c rest ih =>
      intro h
      rw [List.mem_cons, not_or] at h
      have hc : ¬ c = '$' := fun e => h.1 e.symm
      show expandReplacement m b a (c :: rest) = c :: rest
      unfold expandReplacement
      rw [if_neg hc, ih h.2]

/-- Helper lemma: when the pattern is a prefix, the first occurrence is at
index zero. -/
theorem findSubIdx_of_prefixed (pat s : Path) (h : pat.isPrefixOf s = true) :
    findSubIdx pat s = some 0 := by
  cases s with
  | nil =>
      have hp : pat = [] := by
        rcases List.isPrefixOf_iff_prefix.mp h with ⟨t, ht⟩
        cases he : pat with
        | nil => rfl
        | cons x xs => rw [he] at ht; cases ht
      rw [hp]
      rfl
  | cons c cs =>
      unfold findSubIdx
      rw [if_pos h]

/-- Helper lemma: replacing a pattern that sits at the front of the string by
a dollar-free replacement rewrites exactly that front. -/
theorem jsReplaceOnce_of_prefixed (s pat repl : Path)
    (h : pat.isPrefixOf s = true) (hd : '$' ∉ repl) :
    jsReplaceOnce s pat repl = repl ++ s.drop pat.length := by
  unfold jsReplaceOnce
  rw [findSubIdx_of_prefixed pat s h]
  show s.take 0 ++ expandReplacement pat (s.take 0) (s.drop (0 + pat.length)) repl
      ++ s.drop (0 + pat.length) = repl ++ s.drop pat.length
  rw [noDollar_expand _ _ _ repl hd]
  simp

/-- Helper lemma: a path splits into the part before its trailing non-slash
run and that run. -/
theorem beforeLeaf_append_trailingRun (p : Path) :
    p = beforeLeaf p ++ trailingRun p := by
  unfold beforeLeaf trailingRun
  rw [← List.reverse_append, List.takeWhile_append_dropWhile, List.reverse_reverse]

/-- Helper lemma: a trailing non-slash run has no slash. -/
theorem noslash_trailingRun (p : Path) : '/' ∉ trailingRun p := by
  intro hmem
  rw [trailingRun, List.mem_reverse] at hmem
  have := List.mem_takeWhile_imp hmem
  simp at this

/-- Helper lemma: with a nonempty trailing run and a dollar-free new name the
leaf replacement keeps the front and substitutes the name. -/
theorem replaceLeaf_noDollar (p n : Path) (hleaf : trailingRun p ≠ [])
    (hd : '$' ∉ n) : replaceLeafJS p n = beforeLeaf p ++ n := by
  unfold replaceLeafJS
  rw [if_neg (by simpa using hleaf), noDollar_expand _ _ _ n hd]

/-- Helper lemma: `A ++ "/"` is never a prefix of a slash-free `B`. -/
theorem noslash_not_pre_plain (A B : Path) (hB : '/' ∉ B) :
    ¬ (A ++ ['/']) <+: B := by
  intro h
  rcases h with ⟨t, ht⟩
  apply hB
  rw [← ht]
  simp

/-- Helper lemma: for slash-free `A ≠ B`, `A ++ "/"` is never a prefix of
`B ++ "/" ++ rest`. -/
theorem noslash_ne_not_pre (A : Path) :
    ∀ (B rest : Path), '/' ∉ A -> '/' ∉ B -> B ≠ A ->
      ¬ (A ++ ['/']) <+: (B ++ '/' :: rest) := by
  induction A with
  | nil =>
      intro B rest _ hB hne h
      cases B with
      | nil => exact hne rfl
      | cons b bs =>
          rw [List.nil_append, List.cons_append, List.cons_prefix_cons] at h
          exact hB (h.1 ▸ List.mem_cons_self b bs)
  | cons a as ih =>
      intro B rest hA hB hne h
      rw [List.mem_cons, not_or] at hA
      cases B with
      | nil =>
          rw [List.cons_append, List.nil_append, List.cons_prefix_cons] at h
          exact hA.1 h.1.symm
      | cons b bs =>
          rw [List.cons_append, List.cons_append, List.cons_prefix_cons] at h
          rcases h with ⟨hab, h⟩
          rw [List.mem_cons, not_or] at hB
          refine ih bs rest hA.2 hB.2 ?_ h
          intro e
          exact hne (by rw [e, hab])

/-- Claim C7, amended: renaming folder F (found by id, nonempty leaf) to a
new name containing neither a dollar sign nor a slash and different from the
old leaf - and with F's own path dollar-free - rewrites exactly the old-path
prefix of every stored descendant to F's new path, leaves every entry outside
F's subtree completely unchanged, gives F itself the new path, and leaves no
path with the stale old prefix. -/
theorem claim_C7 (files : List VirtualFile) (fid : Nat) (newName : Path)
    (now : Nat) (out : List VirtualFile) (f : VirtualFile)
    (hfind : files.find? (fun g => g.id == fid) = some f)
    (hty : f.type = FType.folder)
    (hleaf : trailingRun f.path ≠ [])
    (hd1 : '$' ∉ newName) (hd2 : '$' ∉ f.path)
    (hsl : '/' ∉ newName) (hne : newName ≠ trailingRun f.path)
    (hout : renameFile files fid newName now = some out) :
    out = files.map (renStep fid f.path (replaceLeafJS f.path newName) newName now) ∧
    (∀ g ∈ files, g.id ≠ fid -> (f.path ++ ['/']).isPrefixOf g.path = true ->
      (renStep fid f.path (replaceLeafJS f.path newName) newName now g).path =
        replaceLeafJS f.path newName ++ g.path.drop f.path.length) ∧
    (∀ g ∈ files, g.id ≠ fid -> (f.path ++ ['/']).isPrefixOf g.path = false ->
      renStep fid f.path (replaceLeafJS f.path newName) newName now g = g) ∧
    (∀ g ∈ files, g.id = fid ->
      (renStep fid f.path (replaceLeafJS f.path newName) newName now g).path =
        replaceLeafJS f.path newName) ∧
    (∀ g2 ∈ out, (f.path ++ ['/']).isPrefixOf g2.path = false) := by
  have hnp : replaceLeafJS f.path newName = beforeLeaf f.path ++ newName :=
    replaceLeaf_noDollar f.path newName hleaf hd1
  have hdBefore : '$' ∉ beforeLeaf f.path := by
    intro hmem
    apply hd2
    rw [beforeLeaf_append_trailingRun f.path]
    exact List.mem_append_left _ hmem
  have hdnp : '$' ∉ replaceLeafJS f.path newName := by
    rw [hnp]
    intro hmem
    rcases List.mem_append.mp hmem with h | h
    · exact hdBefore h
    · exact hd1 h
  have key1 : ∀ B T N : Path, '/' ∉ N -> ¬ ((B ++ T) ++ ['/']) <+: (B ++ N) := by
    intro B T N hN
    rw [List.append_assoc, List.prefix_append_right_inj]
    exact noslash_not_pre_plain T N hN
  have key2 : ∀ B T N rest : Path, '/' ∉ T -> '/' ∉ N -> N ≠ T ->
      ¬ ((B ++ T) ++ ['/']) <+: ((B ++ N) ++ '/' :: rest) := by
    intro B T N rest hT hN hNe
    rw [List.append_assoc, List.append_assoc, List.prefix_append_right_inj]
    exact noslash_ne_not_pre T N rest hT hN hNe
  have hstaleNew : ¬ (f.path ++ ['/']) <+: replaceLeafJS f.path newName := by
    rw [hnp]
    nth_rewrite 1 [beforeLeaf_append_trailingRun f.path]
    exact key1 _ _ _ hsl
  have hstaleNewB :
      (f.path ++ ['/']).isPrefixOf (replaceLeafJS f.path newName) = false := by
    rw [Bool.eq_false_iff]
    intro hb
    exact hstaleNew (List.isPrefixOf_iff_prefix.mp hb)
  have hstaleChild : ∀ rest : Path,
      ¬ (f.path ++ ['/']) <+: (replaceLeafJS f.path newName ++ '/' :: rest) := by
    intro rest
    rw [hnp]
    nth_rewrite 1 [beforeLeaf_append_trailingRun f.path]
    exact key2 _ _ _ _ (noslash_trailingRun f.path) hsl hne
  have houtEq :
      out = files.map (renStep fid f.path (replaceLeafJS f.path newName) newName now) := by
    unfold renameFile at hout
    rw [hfind] at hout
    have hout2 : some (if (f.type == FType.folder) = true then
        files.map (renStep fid f.path (replaceLeafJS f.path newName) newName now)
      else files.map (fun g =>
        if g.id == fid then
          { g with
              virtualName := newName, path := replaceLeafJS f.path newName,
              updatedAt := now }
        else g)) = some out := hout
    rw [if_pos (by rw [hty]; rfl)] at hout2
    exact (Option.some.injEq _ _ ▸ hout2).symm
  have hstepChild : ∀ g : VirtualFile, g.id ≠ fid ->
      (f.path ++ ['/']).isPrefixOf g.path = true ->
      renStep fid f.path (replaceLeafJS f.path newName) newName now g =
        { g with
            path := replaceLeafJS f.path newName ++ g.path.drop f.path.length,
            updatedAt := now } := by
    intro g hid hpre
    have hidb : (g.id == fid) = false := by simpa using hid
    have hpre0 : f.path.isPrefixOf g.path = true := by
      rcases prefix_slash_decomp _ _ hpre with ⟨rest, hrest⟩
      rw [hrest]
      exact List.isPrefixOf_iff_prefix.mpr ⟨'/' :: rest, rfl⟩
    unfold renStep
    rw [hidb]
    simp only [Bool.false_eq_true, if_false, hpre, if_true]
    rw [jsReplaceOnce_of_prefixed g.path f.path _ hpre0 hdnp]
  have hstepOutside : ∀ g : VirtualFile, g.id ≠ fid ->
      (f.path ++ ['/']).isPrefixOf g.path = false ->
      renStep fid f.path (replaceLeafJS f.path newName) newName now g = g := by
    intro g hid hpre
    have hidb : (g.id == fid) = false := by simpa using hid
    unfold renStep
    rw [hidb]
    simp only [Bool.false_eq_true, if_false, hpre]
  have hstepSelf : ∀ g : VirtualFile, g.id = fid ->
      (renStep fid f.path (replaceLeafJS f.path newName) newName now g).path =
        replaceLeafJS f.path newName := by
    intro g hid
    have hidb : (g.id == fid) = true := by simpa using hid
    unfold renStep
    rw [hidb]
    simp only [if_true, hstaleNewB, Bool.false_eq_true, if_false]
  refine ⟨houtEq, ?_, ?_, ?_, ?_⟩
  · intro g _ hid hpre
    rw [hstepChild g hid hpre]
  · intro g _ hid hpre
    exact hstepOutside g hid hpre
  · intro g _ hid
    exact hstepSelf g hid
  · intro g2 hg2
    rw [houtEq] at hg2
    rcases List.mem_map.mp hg2 with ⟨g, hg, rfl⟩
    by_cases hid : g.id = fid
    · rw [hstepSelf g hid]
      exact hstaleNewB
    · by_cases hpre : (f.path ++ ['/']).isPrefixOf g.path = true
      · rw [hstepChild g hid hpre]
        rcases prefix_slash_decomp _ _ hpre with ⟨rest, hrest⟩
        have hdrop : g.path.drop f.path.length = '/' :: rest := by
          rw [hrest, List.drop_left]
        show ((f.path ++ ['/']).isPrefixOf
          (replaceLeafJS f.path newName ++ g.path.drop f.path.length)) = false
        rw [hdrop]
        rw [Bool.eq_false_iff]
        intro hb2
        exact hstaleChild rest (List.isPrefixOf_iff_prefix.mp hb2)
      · have hpreF : (f.path ++ ['/']).isPrefixOf g.path = false := by
          rw [Bool.eq_false_iff]
          exact hpre
        rw [hstepOutside g hid hpreF]
        exact hpreF

/-- Claim C7, witness: renaming the folder "r/f" to "g" rewrites "r/f/c.md"
to "r/g/c.md", leaves the sibling root entry alone, and leaves no stale
prefix. -/
theorem claim_C7_witness :
    ([renameDemoF, renameDemoC, sampleRoot].find? (fun g => g.id == 20) =
      some renameDemoF) ∧
    renameDemoF.type = FType.folder ∧
    trailingRun renameDemoF.path ≠ [] ∧
    ('$' ∉ toPath ("g")) ∧ ('$' ∉ renameDemoF.path) ∧ ('/' ∉ toPath ("g")) ∧
    (toPath ("g") ≠ trailingRun renameDemoF.path) ∧
    (renameFile [renameDemoF, renameDemoC, sampleRoot] 20 (toPath ("g")) 9 =
      some ([renameDemoF, renameDemoC, sampleRoot].map
        (renStep 20 renameDemoF.path
          (replaceLeafJS renameDemoF.path (toPath ("g"))) (toPath ("g")) 9))) ∧
    (([renameDemoF, renameDemoC, sampleRoot].map
        (renStep 20 renameDemoF.path
          (replaceLeafJS renameDemoF.path (toPath ("g"))) (toPath ("g")) 9))
      = [renameDemoF, renameDemoC, sampleRoot].map
        (renStep 20 renameDemoF.path
          (replaceLeafJS renameDemoF.path (toPath ("g"))) (toPath ("g")) 9) ∧
    (∀ g ∈ [renameDemoF, renameDemoC, sampleRoot], g.id ≠ 20 ->
      (renameDemoF.path ++ ['/']).isPrefixOf g.path = true ->
      (renStep 20 renameDemoF.path (replaceLeafJS renameDemoF.path (toPath ("g")))
          (toPath ("g")) 9 g).path =
        replaceLeafJS renameDemoF.path (toPath ("g")) ++
          g.path.drop renameDemoF.path.length) ∧
    (∀ g ∈ [renameDemoF, renameDemoC, sampleRoot], g.id ≠ 20 ->
      (renameDemoF.path ++ ['/']).isPrefixOf g.path = false ->
      renStep 20 renameDemoF.path (replaceLeafJS renameDemoF.path (toPath ("g")))
        (toPath ("g")) 9 g = g) ∧
    (∀ g ∈ [renameDemoF, renameDemoC, sampleRoot], g.id = 20 ->
      (renStep 20 renameDemoF.path (replaceLeafJS renameDemoF.path (toPath ("g")))
          (toPath ("g")) 9 g).path =
        replaceLeafJS renameDemoF.path (toPath ("g"))) ∧
    (∀ g2 ∈ [renameDemoF, renameDemoC, sampleRoot].map
        (renStep 20 renameDemoF.path
          (replaceLeafJS renameDemoF.path (toPath ("g"))) (toPath ("g")) 9),
      (renameDemoF.path ++ ['/']).isPrefixOf g2.path = false)) :=
  ⟨by decide, by decide, by decide, by decide, by decide, by decide, by decide,
    by decide,
    claim_C7 [renameDemoF, renameDemoC, sampleRoot] 20 (toPath ("g")) 9
      ([renameDemoF, renameDemoC, sampleRoot].map
        (renStep 20 renameDemoF.path
          (replaceLeafJS renameDemoF.path (toPath ("g"))) (toPath ("g")) 9))
      renameDemoF
      (by decide) (by decide) (by decide) (by decide) (by decide) (by decide)
      (by decide) (by decide)⟩


/-- Claim C10, counterexample: the claim states the scan returns only files
whose lowercased extension is .md, .mdx or .markdown. The filter is
`'.' + name.split('.').pop()` - for a file literally named "md" (which has no
extension at all) the split returns the whole name, the filter sees ".md",
and the file is returned. -/
theorem claim_C10_counterexample :
    (scanDirectory (mkScanConfig DEFAULT_SCAN_CONFIG.ignoredFolders) 0
        [DiskNode.file (toPath ("md")) 5]).map
      (fun e => (e.virtualName, e.type == FType.file)) =
      [(toPath ("md"), true)] ∧
    specExtension (toPath ("md")) = none := by
  decide


/-- Helper lemma: splitting never yields the empty list of segments. -/
theorem splitSlash_ne_nil (p : Path) : splitSlash p ≠ [] := by
  cases p with
  | nil => intro h; cases h
  | cons c rest =>
      unfold splitSlash
      by_cases hc : c = '/'
      · rw [if_pos hc]; intro h; cases h
      · rw [if_neg hc]
        cases h2 : splitSlash rest with
        | nil => intro h; cases h
        | cons seg segs => intro h; cases h

/-- Helper lemma: a slash-free path is a single segment. -/
theorem splitSlash_noslash (p : Path) (h : '/' ∉ p) : splitSlash p = [p] := by
  induction p with
  | nil => rfl
  | cons c rest ih =>
      rw [List.mem_cons, not_or] at h
      unfold splitSlash
      rw [if_neg (fun e => h.1 e.symm), ih h.2]

/-- Helper lemma: splitting a path that starts with a slash. -/
theorem splitSlash_cons_slash (rest : Path) :
    splitSlash ('/' :: rest) = [] :: splitSlash rest := by
  rw [splitSlash]
  rw [if_pos rfl]

/-- Helper lemma: splitting a path that starts with a non-slash character. -/
theorem splitSlash_cons_nonslash (c : Char) (rest seg : Path) (segs : List Path)
    (hc : ¬ c = '/') (h : splitSlash rest = seg :: segs) :
    splitSlash (c :: rest) = (c :: seg) :: segs := by
  rw [splitSlash]
  rw [if_neg hc, h]

/-- Helper lemma: splitting distributes over a slash separator. -/
theorem splitSlash_append (p q : Path) :
    splitSlash (p ++ '/' :: q) = splitSlash p ++ splitSlash q := by
  induction p with
  | nil => rw [List.nil_append, splitSlash_cons_slash]; rfl
  | cons c rest ih =>
      by_cases hc : c = '/'
      · subst hc
        rw [List.cons_append, splitSlash_cons_slash, ih, splitSlash_cons_slash,
          List.cons_append]
      · cases h2 : splitSlash rest with
        | nil => exact absurd h2 (splitSlash_ne_nil rest)
        | cons seg segs =>
            have hL : splitSlash (rest ++ '/' :: q) = seg :: (segs ++ splitSlash q) := by
              rw [ih, h2]
              rfl
            rw [List.cons_append,
              splitSlash_cons_nonslash c _ seg (segs ++ splitSlash q) hc hL,
              splitSlash_cons_nonslash c rest seg segs hc h2]
            rfl

/-- Helper lemma: joining the split segments restores the path. -/
theorem joinSlash_splitSlash (p : Path) : joinSlash (splitSlash p) = p := by
  induction p with
  | nil => rfl
  | cons c rest ih =>
      by_cases hc : c = '/'
      · subst hc
        rw [splitSlash_cons_slash]
        cases h2 : splitSlash rest with
        | nil => exact absurd h2 (splitSlash_ne_nil rest)
        | cons seg segs =>
            show '/' :: joinSlash (seg :: segs) = '/' :: rest
            rw [← h2, ih]
      · cases h2 : splitSlash rest with
        | nil => exact absurd h2 (splitSlash_ne_nil rest)
        | cons seg segs =>
            rw [splitSlash_cons_nonslash c rest seg segs hc h2]
            have hh := ih
            rw [h2] at hh
            cases segs with
            | nil =>
                show c :: seg = c :: rest
                exact congrArg (fun x => c :: x) hh
            | cons seg2 segs2 =>
                show c :: (seg ++ '/' :: joinSlash (seg2 :: segs2)) = c :: rest
                exact congrArg (fun x => c :: x) hh

/-- Helper lemma: the join of a nonempty proper front of the segments,
followed by a slash, is a prefix of the full join. -/
theorem joinSlash_take_pre (parts : List Path) :
    ∀ k : Nat, 0 < k -> k < parts.length ->
      (joinSlash (parts.take k) ++ ['/']) <+: joinSlash parts := by
  induction parts with
  | nil => intro k _ hk; simp at hk
  | cons s rest ih =>
      intro k hk0 hklen
      cases k with
      | zero => cases hk0
      | succ k2 =>
          have hrest : rest ≠ [] := by
            intro he
            rw [he] at hklen
            simp at hklen
          cases hr : rest with
          | nil => exact absurd hr hrest
          | cons r rs =>
              rw [← hr]
              cases k2 with
              | zero =>
                  show (joinSlash [s] ++ ['/']) <+: joinSlash (s :: rest)
                  rw [hr]
                  show (s ++ ['/']) <+: s ++ '/' :: joinSlash (r :: rs)
                  rw [List.prefix_append_right_inj, List.cons_prefix_cons]
                  exact ⟨rfl, List.nil_prefix⟩
              | succ k3 =>
                  have htlen : k3 + 1 < rest.length := by
                    simp at hklen
                    omega
                  have htne : rest.take (k3 + 1) ≠ [] := by
                    rw [hr]
                    simp
                  show (joinSlash ((s :: rest).take (k3 + 2)) ++ ['/']) <+:
                    joinSlash (s :: rest)
                  rw [List.take_succ_cons]
                  cases ht : rest.take (k3 + 1) with
                  | nil => exact absurd ht htne
                  | cons t ts =>
                      rw [← ht]
                      have h1 : joinSlash (s :: rest.take (k3 + 1)) =
                          s ++ '/' :: joinSlash (rest.take (k3 + 1)) := by
                        rw [ht]
                        rfl
                      have h2 : joinSlash (s :: rest) =
                          s ++ '/' :: joinSlash rest := by
                        rw [hr]
                        rfl
                      rw [h1, h2, List.append_assoc]
                      rw [List.prefix_append_right_inj]
                      rw [List.cons_append, List.cons_prefix_cons]
                      exact ⟨rfl, ih (k3 + 1) (Nat.succ_pos k3) htlen⟩

/-- Helper lemma: every ancestor path of `p`, extended with a slash, is a
prefix of `p`. -/
theorem ancestorPaths_pre (p : Path) (ap : Path) (h : ap ∈ ancestorPaths p) :
    (ap ++ ['/']).isPrefixOf p = true := by
  unfold ancestorPaths at h
  rcases List.mem_map.mp h with ⟨i, hi, rfl⟩
  rw [List.mem_range] at hi
  have hlen : i + 1 < (splitSlash p).length := by omega
  have := joinSlash_take_pre (splitSlash p) (i + 1) (Nat.succ_pos i) hlen
  rw [joinSlash_splitSlash] at this
  exact List.isPrefixOf_iff_prefix.mpr this


/-- Helper lemma: appending an entry with a strictly larger id keeps the id
list nodup. -/
theorem nodup_ids_snoc (l : List VirtualFile) (e : VirtualFile)
    (hlt : ∀ g ∈ l, g.id < e.id) (hnd : (l.map (fun g => g.id)).Nodup) :
    ((l ++ [e]).map (fun g => g.id)).Nodup := by
  rw [List.map_append]
  refine List.Nodup.append hnd (List.nodup_singleton _) ?_
  intro a ha hb
  rcases List.mem_map.mp ha with ⟨g, hg, rfl⟩
  simp only [List.map_cons, List.map_nil, List.mem_singleton] at hb
  exact absurd hb (Nat.ne_of_lt (hlt g hg))

/-- Helper lemma: the child path built by the walk is nonempty and has
exactly depth + 1 segments. -/
theorem childPath_ok (path : Path) (depth : Nat) (name : Path)
    (hpd : PathDepthOk path depth) (hn : '/' ∉ name) (hne : name ≠ []) :
    ((if path.isEmpty then name else path ++ '/' :: name) ≠ []) ∧
    (splitSlash (if path.isEmpty then name else path ++ '/' :: name)).length =
      depth + 1 := by
  rcases hpd with ⟨hp, hd⟩ | ⟨hp, hd⟩
  · subst hp
    subst hd
    have hif : (if ([] : Path).isEmpty then name else [] ++ '/' :: name) = name := rfl
    rw [hif, splitSlash_noslash name hn]
    exact ⟨hne, rfl⟩
  · have hpe : path.isEmpty = false := by
      cases path with
      | nil => exact absurd rfl hp
      | cons a b => rfl
    rw [if_neg (by rw [hpe]; exact Bool.false_ne_true)]
    constructor
    · cases path with
      | nil => exact absurd rfl hp
      | cons a b => intro h; cases h
    · rw [splitSlash_append, splitSlash_noslash name hn, List.length_append, hd]
      rfl

/-- Helper lemma: pushing a non-ignored folder entry preserves the walk
invariant. -/
theorem ScanStInv_push_folder (cfg : ScanConfig) (st : ScanState)
    (fp name : Path) (now : Nat) (hinv : ScanStInv cfg st)
    (hig : isIgnoredFolder name cfg.ignoredFolders = false)
    (hlen : (splitSlash fp).length ≤ cfg.maxDepth + 1) :
    ScanStInv cfg
      { files := st.files ++ [scanFolderEntry st.nextId fp name now],
        count := st.count, nextId := st.nextId + 1 } := by
  obtain ⟨h1, h2, h3, h4, h5⟩ := hinv
  refine ⟨?_, h2, ?_, ?_, ?_⟩
  · show ((st.files ++ [scanFolderEntry st.nextId fp name now]).filter
      (fun e => e.type == FType.file)).length = st.count
    rw [List.filter_append]
    rw [show ([scanFolderEntry st.nextId fp name now].filter
      (fun e => e.type == FType.file)) = [] from rfl]
    rw [List.append_nil]
    exact h1
  · intro e he
    rcases List.mem_append.mp he with he | he
    · exact Nat.lt_succ_of_lt (h3 e he)
    · rcases List.mem_singleton.mp he with rfl
      exact Nat.lt_succ_self _
  · exact nodup_ids_snoc st.files _ (fun g hg => h3 g hg) h4
  · intro e he
    rcases List.mem_append.mp he with he | he
    · exact h5 e he
    · rcases List.mem_singleton.mp he with rfl
      refine ⟨rfl, ?_, ?_, hlen⟩
      · intro h; cases h
      · intro _; exact hig

/-- Helper lemma: pushing an allowed file entry preserves the walk
invariant when the cap has not been reached. -/
theorem ScanStInv_push_file (cfg : ScanConfig) (st : ScanState)
    (fp name : Path) (lm now : Nat) (hinv : ScanStInv cfg st)
    (hcap : st.count < cfg.maxFiles)
    (hallow : isAllowedFile name cfg.allowedExtensions = true)
    (hlen : (splitSlash fp).length ≤ cfg.maxDepth + 1) :
    ScanStInv cfg
      { files := st.files ++ [scanFileEntry st.nextId fp name lm now],
        count := st.count + 1, nextId := st.nextId + 1 } := by
  obtain ⟨h1, h2, h3, h4, h5⟩ := hinv
  refine ⟨?_, ?_, ?_, ?_, ?_⟩
  · show ((st.files ++ [scanFileEntry st.nextId fp name lm now]).filter
      (fun e => e.type == FType.file)).length = st.count + 1
    rw [List.filter_append]
    rw [show ([scanFileEntry st.nextId fp name lm now].filter
      (fun e => e.type == FType.file)) = [scanFileEntry st.nextId fp name lm now]
      from rfl]
    rw [List.length_append, h1]
    rfl
  · show st.count + 1 ≤ cfg.maxFiles
    omega
  · intro e he
    rcases List.mem_append.mp he with he | he
    · exact Nat.lt_succ_of_lt (h3 e he)
    · rcases List.mem_singleton.mp he with rfl
      exact Nat.lt_succ_self _
  · exact nodup_ids_snoc st.files _ (fun g hg => h3 g hg) h4
  · intro e he
    rcases List.mem_append.mp he with he | he
    · exact h5 e he
    · rcases List.mem_singleton.mp he with rfl
      refine ⟨rfl, ?_, ?_, hlen⟩
      · intro _; exact hallow
      · intro h; cases h

/-- Helper lemma: scanStep on a directory entry, written out. -/
theorem scanStep_dir_eq (cfg : ScanConfig) (now : Nat)
    (recurse : List DiskNode -> Path -> Nat -> ScanState -> ScanState)
    (path : Path) (depth : Nat) (acc : ScanState) (name : Path)
    (children : List DiskNode) :
    scanStep cfg now recurse path depth acc (DiskNode.dir name children) =
      if acc.count >= cfg.maxFiles then acc
      else if isIgnoredFolder name cfg.ignoredFolders then acc
      else if depth + 1 > cfg.maxDepth then
        { files := acc.files ++ [scanFolderEntry acc.nextId
            (if path.isEmpty then name else path ++ '/' :: name) name now],
          count := acc.count, nextId := acc.nextId + 1 }
      else if acc.count >= cfg.maxFiles then
        { files := acc.files ++ [scanFolderEntry acc.nextId
            (if path.isEmpty then name else path ++ '/' :: name) name now],
          count := acc.count, nextId := acc.nextId + 1 }
      else recurse children (if path.isEmpty then name else path ++ '/' :: name)
        (depth + 1)
        { files := acc.files ++ [scanFolderEntry acc.nextId
            (if path.isEmpty then name else path ++ '/' :: name) name now],
          count := acc.count, nextId := acc.nextId + 1 } := rfl

/-- Helper lemma: scanStep on a file entry, written out. -/
theorem scanStep_file_eq (cfg : ScanConfig) (now : Nat)
    (recurse : List DiskNode -> Path -> Nat -> ScanState -> ScanState)
    (path : Path) (depth : Nat) (acc : ScanState) (name : Path) (lm : Nat) :
    scanStep cfg now recurse path depth acc (DiskNode.file name lm) =
      if acc.count >= cfg.maxFiles then acc
      else if !(isAllowedFile name cfg.allowedExtensions) then acc
      else
        { files := acc.files ++ [scanFileEntry acc.nextId
            (if path.isEmpty then name else path ++ '/' :: name) name lm now],
          count := acc.count + 1, nextId := acc.nextId + 1 } := rfl

/-- Helper lemma: one scanStep preserves the walk invariant, assuming the
recursion at depth + 1 does. -/
theorem scanStep_inv (cfg : ScanConfig) (now : Nat)
    (recurse : List DiskNode -> Path -> Nat -> ScanState -> ScanState)
    (path : Path) (depth : Nat)
    (hrec : ∀ (children : List DiskNode) (fp : Path) (st1 : ScanState),
      (∀ c ∈ children, DiskNode.Wf c) -> depth + 1 ≤ cfg.maxDepth ->
      PathDepthOk fp (depth + 1) -> ScanStInv cfg st1 ->
      ScanStInv cfg (recurse children fp (depth + 1) st1))
    (e : DiskNode) (hwf : DiskNode.Wf e) (st : ScanState)
    (hdep : depth ≤ cfg.maxDepth) (hpd : PathDepthOk path depth)
    (hinv : ScanStInv cfg st) :
    ScanStInv cfg (scanStep cfg now recurse path depth st e) := by
  cases e with
  | dir name children =>
      cases hwf with
      | dir _ _ hn hne hwfc =>
          rw [scanStep_dir_eq]
          by_cases hcap : st.count >= cfg.maxFiles
          · rw [if_pos hcap]
            exact hinv
          · rw [if_neg hcap]
            by_cases hig : isIgnoredFolder name cfg.ignoredFolders = true
            · rw [if_pos hig]
              exact hinv
            · rw [if_neg hig]
              have higf : isIgnoredFolder name cfg.ignoredFolders = false :=
                Bool.eq_false_iff.mpr hig
              obtain ⟨hfpne, hfplen⟩ := childPath_ok path depth name hpd hn hne
              have hinv1 : ScanStInv cfg
                  { files := st.files ++ [scanFolderEntry st.nextId
                      (if path.isEmpty then name else path ++ '/' :: name) name now],
                    count := st.count, nextId := st.nextId + 1 } :=
                ScanStInv_push_folder cfg st _ name now hinv higf (by omega)
              by_cases hdd : depth + 1 > cfg.maxDepth
              · rw [if_pos hdd]
                exact hinv1
              · rw [if_neg hdd]
                rw [if_neg hcap]
                refine hrec children _ _ hwfc (by omega) ?_ hinv1
                exact Or.inr ⟨hfpne, hfplen⟩
  | file name lm =>
      cases hwf with
      | file _ _ hn hne =>
          rw [scanStep_file_eq]
          by_cases hcap : st.count >= cfg.maxFiles
          · rw [if_pos hcap]
            exact hinv
          · rw [if_neg hcap]
            by_cases hal : isAllowedFile name cfg.allowedExtensions = true
            · rw [if_neg (by rw [hal]; intro h; cases h)]
              obtain ⟨hfpne, hfplen⟩ := childPath_ok path depth name hpd hn hne
              exact ScanStInv_push_file cfg st _ name lm now hinv (by omega) hal
                (by omega)
            · rw [if_pos (by rw [Bool.eq_false_iff.mpr hal]; rfl)]
              exact hinv

/-- Helper lemma: the fold over a directory's entries preserves the walk
invariant. -/
theorem scanFold_inv (cfg : ScanConfig) (now : Nat)
    (recurse : List DiskNode -> Path -> Nat -> ScanState -> ScanState)
    (path : Path) (depth : Nat)
    (hrec : ∀ (children : List DiskNode) (fp : Path) (st1 : ScanState),
      (∀ c ∈ children, DiskNode.Wf c) -> depth + 1 ≤ cfg.maxDepth ->
      PathDepthOk fp (depth + 1) -> ScanStInv cfg st1 ->
      ScanStInv cfg (recurse children fp (depth + 1) st1)) :
    ∀ (entries : List DiskNode) (st : ScanState),
      (∀ c ∈ entries, DiskNode.Wf c) -> depth ≤ cfg.maxDepth ->
      PathDepthOk path depth -> ScanStInv cfg st ->
      ScanStInv cfg
        (entries.foldl (scanStep cfg now recurse path depth) st) := by
  intro entries
  induction entries with
  | nil => intro st _ _ _ h; exact h
  | cons e rest ih =>
      intro st hwf hdep hpd hinv
      rw [List.foldl_cons]
      exact ih _ (fun c hc => hwf c (List.mem_cons_of_mem e hc)) hdep hpd
        (scanStep_inv cfg now recurse path depth hrec e
          (hwf e (List.mem_cons_self e rest)) st hdep hpd hinv)

/-- Helper lemma: the whole guarded walk preserves the invariant. -/
theorem scanEntries_inv (cfg : ScanConfig) (now : Nat) (gas : Nat) :
    ∀ (entries : List DiskNode) (path : Path) (depth : Nat) (st : ScanState),
      (∀ c ∈ entries, DiskNode.Wf c) -> depth ≤ cfg.maxDepth ->
      PathDepthOk path depth -> ScanStInv cfg st ->
      ScanStInv cfg (scanEntries cfg now gas entries path depth st) := by
  induction gas with
  | zero => intro entries path depth st _ _ _ hinv; exact hinv
  | succ gas ihgas =>
      intro entries path depth st hwf hdep hpd hinv
      show ScanStInv cfg
        (entries.foldl (scanStep cfg now (scanEntries cfg now gas) path depth) st)
      refine scanFold_inv cfg now (scanEntries cfg now gas) path depth ?_
        entries st hwf hdep hpd hinv
      intro children fp st1 hwfc hdep1 hpd1 hinv1
      exact ihgas children fp (depth + 1) st1 hwfc hdep1 hpd1 hinv1

/-- Helper lemma: the state produced by scanDirectory's recursive phase
satisfies the invariant. -/
theorem scanDirectoryRaw_inv (cfg : ScanConfig) (now : Nat)
    (roots : List DiskNode) (hwf : ∀ c ∈ roots, DiskNode.Wf c)
    (hmax : 0 < cfg.maxFiles) :
    ScanStInv cfg (scanDirectoryRaw cfg now roots) := by
  unfold scanDirectoryRaw
  rw [if_neg (by omega)]
  rw [if_neg (by omega)]
  refine scanEntries_inv cfg now (cfg.maxDepth + 1) roots [] 0
    { files := [], count := 0, nextId := 0 } hwf
    (Nat.zero_le _) (Or.inl ⟨rfl, rfl⟩) ?_
  exact ⟨rfl, Nat.zero_le _, fun e he => absurd he (List.not_mem_nil e),
    List.nodup_nil, fun e he => absurd he (List.not_mem_nil e)⟩


/-- Helper lemma: membership in the inner ancestor fold of allowedIdsOf. -/
theorem mem_ancestorFold (files : List VirtualFile) (x : Nat) :
    ∀ (APs : List Path) (acc : List Nat),
      (x ∈ APs.foldl (fun acc2 ap =>
        match files.find? (fun dir => dir.path == ap && dir.type == FType.folder) with
        | some folder => folder.id :: acc2
        | none => acc2) acc) ↔
      (x ∈ acc ∨ ∃ ap ∈ APs, ∃ folder,
        files.find? (fun dir => dir.path == ap && dir.type == FType.folder) =
          some folder ∧ x = folder.id) := by
  intro APs
  induction APs with
  | nil => intro acc; simp
  | cons ap rest ih =>
      intro acc
      rw [List.foldl_cons, ih]
      cases hf : files.find? (fun dir => dir.path == ap && dir.type == FType.folder) with
      | none =>
          simp only [hf]
          constructor
          · rintro (h | h)
            · exact Or.inl h
            · obtain ⟨ap2, h2, folder, hff, hx⟩ := h
              exact Or.inr ⟨ap2, List.mem_cons_of_mem ap h2, folder, hff, hx⟩
          · rintro (h | h)
            · exact Or.inl h
            · obtain ⟨ap2, h2, folder, hff, hx⟩ := h
              rcases List.mem_cons.mp h2 with rfl | h2
              · rw [hf] at hff
                cases hff
              · exact Or.inr ⟨ap2, h2, folder, hff, hx⟩
      | some folder =>
          simp only [hf]
          constructor
          · rintro (h | h)
            · rcases List.mem_cons.mp h with rfl | h
              · exact Or.inr ⟨ap, List.mem_cons_self ap rest, folder, hf, rfl⟩
              · exact Or.inl h
            · obtain ⟨ap2, h2, folder2, hff, hx⟩ := h
              exact Or.inr ⟨ap2, List.mem_cons_of_mem ap h2, folder2, hff, hx⟩
          · rintro (h | h)
            · exact Or.inl (List.mem_cons_of_mem _ h)
            · obtain ⟨ap2, h2, folder2, hff, hx⟩ := h
              rcases List.mem_cons.mp h2 with rfl | h2
              · rw [hf] at hff
                injection hff with he
                subst he
                left
                rw [hx]
                exact List.mem_cons_self _ _
              · exact Or.inr ⟨ap2, h2, folder2, hff, hx⟩

/-- Helper lemma: membership in the allowed-id set of scanDirectory's second
pass. -/
theorem mem_allowedIdsOf (files : List VirtualFile) (x : Nat) :
    x ∈ allowedIdsOf files ↔ ∃ f ∈ files, f.type = FType.file ∧
      (x = f.id ∨ ∃ ap ∈ ancestorPaths f.path, ∃ folder,
        files.find? (fun dir => dir.path == ap && dir.type == FType.folder) =
          some folder ∧ x = folder.id) := by
  have gen : ∀ (L : List VirtualFile) (acc : List Nat),
      (x ∈ L.foldl (fun acc f =>
        if f.type == FType.file then
          (ancestorPaths f.path).foldl (fun acc2 ap =>
            match files.find? (fun dir => dir.path == ap && dir.type == FType.folder) with
            | some folder => folder.id :: acc2
            | none => acc2) (f.id :: acc)
        else acc) acc) ↔
      (x ∈ acc ∨ ∃ f ∈ L, f.type = FType.file ∧
        (x = f.id ∨ ∃ ap ∈ ancestorPaths f.path, ∃ folder,
          files.find? (fun dir => dir.path == ap && dir.type == FType.folder) =
            some folder ∧ x = folder.id)) := by
    intro L
    induction L with
    | nil => intro acc; simp
    | cons f rest ih =>
        intro acc
        rw [List.foldl_cons, ih]
        by_cases hft : f.type = FType.file
        · rw [if_pos (by rw [hft]; rfl), mem_ancestorFold]
          constructor
          · rintro ((h | h) | h)
            · rcases List.mem_cons.mp h with rfl | h
              · exact Or.inr ⟨f, List.mem_cons_self f rest, hft, Or.inl rfl⟩
              · exact Or.inl h
            · exact Or.inr ⟨f, List.mem_cons_self f rest, hft, Or.inr h⟩
            · obtain ⟨f2, h2, hc⟩ := h
              exact Or.inr ⟨f2, List.mem_cons_of_mem f h2, hc⟩
          · rintro (h | h)
            · exact Or.inl (Or.inl (List.mem_cons_of_mem _ h))
            · obtain ⟨f2, h2, hft2, hc⟩ := h
              rcases List.mem_cons.mp h2 with rfl | h2
              · rcases hc with hc | hc
                · left
                  left
                  rw [hc]
                  exact List.mem_cons_self _ _
                · exact Or.inl (Or.inr hc)
              · exact Or.inr ⟨f2, h2, hft2, hc⟩
        · rw [if_neg (by intro hb; exact hft (by simpa using hb))]
          constructor
          · rintro (h | h)
            · exact Or.inl h
            · obtain ⟨f2, h2, hc⟩ := h
              exact Or.inr ⟨f2, List.mem_cons_of_mem f h2, hc⟩
          · rintro (h | h)
            · exact Or.inl h
            · obtain ⟨f2, h2, hft2, hc⟩ := h
              rcases List.mem_cons.mp h2 with rfl | h2
              · exact absurd hft2 hft
              · exact Or.inr ⟨f2, h2, hft2, hc⟩
  have := gen files []
  constructor
  · intro h
    rcases (this.mp h) with h | h
    · cases h
    · exact h
  · intro h
    exact this.mpr (Or.inr h)


/-- Sample disk tree for exercising the scanner: a root folder with one
markdown file, an ignored node_modules subtree and an empty subfolder, plus a
top-level markdown file. -/
def scanDemoRoots : List DiskNode :=
  [DiskNode.dir (toPath ("docs"))
     [DiskNode.file (toPath ("a.md")) 5,
      DiskNode.dir (toPath ("node_modules")) [DiskNode.file (toPath ("b.md")) 6],
      DiskNode.dir (toPath ("empty")) []],
   DiskNode.file (toPath ("readme.md")) 7]

/-- C10 (amended): for every settings ignored-folder list and well-formed
disk tree, scanDirectory (which every call site runs with the default limits
and extensions) returns only non-web-only entries, contains at most 1000
file-type entries, contains only files passing the source's extension filter
(the final dot-segment of the lowercased name prefixed with a dot is one of
.md/.mdx/.markdown - a dotless name like "md" also passes), never yields a
path of more than 11 segments (root entries are at depth 0 with one segment),
skips every folder whose name starts with a dot or is in the ignored list,
and keeps a folder entry only when some returned file entry lies strictly
below its path. -/
theorem claim_C10 (ignored : List Path) (now : Nat) (roots : List DiskNode)
    (hwf : ∀ c ∈ roots, DiskNode.Wf c) :
    (∀ e ∈ scanDirectory (mkScanConfig ignored) now roots, e.isWebOnly = false) ∧
    ((scanDirectory (mkScanConfig ignored) now roots).filter
        (fun e => e.type == FType.file)).length ≤ 1000 ∧
    (∀ e ∈ scanDirectory (mkScanConfig ignored) now roots, e.type = FType.file ->
      isAllowedFile e.virtualName
        [toPath (".md"), toPath (".mdx"), toPath (".markdown")] = true) ∧
    (∀ e ∈ scanDirectory (mkScanConfig ignored) now roots,
      (splitSlash e.path).length ≤ 11) ∧
    (∀ e ∈ scanDirectory (mkScanConfig ignored) now roots, e.type = FType.folder ->
      isIgnoredFolder e.virtualName ignored = false) ∧
    (∀ e ∈ scanDirectory (mkScanConfig ignored) now roots, e.type = FType.folder ->
      ∃ g ∈ scanDirectory (mkScanConfig ignored) now roots, g.type = FType.file ∧
        (e.path ++ ['/']).isPrefixOf g.path = true) := by
  obtain ⟨hcount, hcap, hlt, hnd, hok⟩ :=
    scanDirectoryRaw_inv (mkScanConfig ignored) now roots hwf
      (by have h : (0 : Nat) < 1000 := by decide
          exact h)
  have hsub : ∀ e ∈ scanDirectory (mkScanConfig ignored) now roots,
      e ∈ (scanDirectoryRaw (mkScanConfig ignored) now roots).files :=
    fun e he => (List.mem_filter.mp he).1
  have hinj := List.inj_on_of_nodup_map hnd
  refine ⟨?_, ?_, ?_, ?_, ?_, ?_⟩
  · intro e he
    exact (hok e (hsub e he)).1
  · have hsubl : List.Sublist (scanDirectory (mkScanConfig ignored) now roots)
        (scanDirectoryRaw (mkScanConfig ignored) now roots).files := by
      unfold scanDirectory
      exact List.filter_sublist _
    have h3 := (hsubl.filter (fun e => e.type == FType.file)).length_le
    rw [hcount] at h3
    exact le_trans h3 hcap
  · intro e he htype
    exact (hok e (hsub e he)).2.1 htype
  · intro e he
    exact (hok e (hsub e he)).2.2.2
  · intro e he htype
    exact (hok e (hsub e he)).2.2.1 htype
  · intro e he htype
    have hmem := List.mem_filter.mp he
    have hid : e.id ∈ allowedIdsOf (scanDirectoryRaw (mkScanConfig ignored) now roots).files := by
      simpa using hmem.2
    rw [mem_allowedIdsOf] at hid
    obtain ⟨f, hf, hft, hcase⟩ := hid
    rcases hcase with hcase | hcase
    · have he2 : e = f := hinj hmem.1 hf hcase
      rw [he2, hft] at htype
      exact absurd htype (by decide)
    · obtain ⟨ap, hap, folder, hff, hx⟩ := hcase
      have hfolder_mem : folder ∈ (scanDirectoryRaw (mkScanConfig ignored) now roots).files :=
        List.mem_of_find?_eq_some hff
      have hpred := List.find?_some hff
      simp only [Bool.and_eq_true, beq_iff_eq] at hpred
      have he2 : e = folder := hinj hmem.1 hfolder_mem hx
      refine ⟨f, ?_, hft, ?_⟩
      · refine List.mem_filter.mpr ⟨hf, ?_⟩
        have hfid : f.id ∈ allowedIdsOf (scanDirectoryRaw (mkScanConfig ignored) now roots).files :=
          (mem_allowedIdsOf (scanDirectoryRaw (mkScanConfig ignored) now roots).files f.id).mpr
            ⟨f, hf, hft, Or.inl rfl⟩
        simpa using hfid
      · rw [he2, hpred.1]
        exact ancestorPaths_pre f.path ap hap

/-- Witness: claim_C10 applied to the concrete demo tree scanned with the
default ignored-folder list. -/
theorem claim_C10_witness :
    (∀ c ∈ scanDemoRoots, DiskNode.Wf c) ∧
    ((∀ e ∈ scanDirectory (mkScanConfig DEFAULT_SCAN_CONFIG.ignoredFolders) 0
        scanDemoRoots, e.isWebOnly = false) ∧
     ((scanDirectory (mkScanConfig DEFAULT_SCAN_CONFIG.ignoredFolders) 0
        scanDemoRoots).filter (fun e => e.type == FType.file)).length ≤ 1000 ∧
     (∀ e ∈ scanDirectory (mkScanConfig DEFAULT_SCAN_CONFIG.ignoredFolders) 0
        scanDemoRoots, e.type = FType.file ->
       isAllowedFile e.virtualName
         [toPath (".md"), toPath (".mdx"), toPath (".markdown")] = true) ∧
     (∀ e ∈ scanDirectory (mkScanConfig DEFAULT_SCAN_CONFIG.ignoredFolders) 0
        scanDemoRoots, (splitSlash e.path).length ≤ 11) ∧
     (∀ e ∈ scanDirectory (mkScanConfig DEFAULT_SCAN_CONFIG.ignoredFolders) 0
        scanDemoRoots, e.type = FType.folder ->
       isIgnoredFolder e.virtualName DEFAULT_SCAN_CONFIG.ignoredFolders = false) ∧
     (∀ e ∈ scanDirectory (mkScanConfig DEFAULT_SCAN_CONFIG.ignoredFolders) 0
        scanDemoRoots, e.type = FType.folder ->
       ∃ g ∈ scanDirectory (mkScanConfig DEFAULT_SCAN_CONFIG.ignoredFolders) 0
          scanDemoRoots, g.type = FType.file ∧
         (e.path ++ ['/']).isPrefixOf g.path = true)) := by
  have hwf : ∀ c ∈ scanDemoRoots, DiskNode.Wf c := by
    intro c hc
    unfold scanDemoRoots at hc
    rcases List.mem_cons.mp hc with rfl | hc
    · refine DiskNode.Wf.dir _ _ (by decide) (by decide) ?_
      intro c2 hc2
      rcases List.mem_cons.mp hc2 with rfl | hc2
      · exact DiskNode.Wf.file _ _ (by decide) (by decide)
      rcases List.mem_cons.mp hc2 with rfl | hc2
      · refine DiskNode.Wf.dir _ _ (by decide) (by decide) ?_
        intro c3 hc3
        rcases List.mem_cons.mp hc3 with rfl | hc3
        · exact DiskNode.Wf.file _ _ (by decide) (by decide)
        · exact absurd hc3 (List.not_mem_nil c3)
      rcases List.mem_cons.mp hc2 with rfl | hc2
      · exact DiskNode.Wf.dir _ _ (by decide) (by decide)
          (fun c3 hc3 => absurd hc3 (List.not_mem_nil c3))
      · exact absurd hc2 (List.not_mem_nil c2)
    rcases List.mem_cons.mp hc with rfl | hc
    · exact DiskNode.Wf.file _ _ (by decide) (by decide)
    · exact absurd hc (List.not_mem_nil c)
  exact ⟨hwf, claim_C10 DEFAULT_SCAN_CONFIG.ignoredFolders 0 scanDemoRoots hwf⟩

end MDHub
